import Mathlib

/-!
Verification development for the `io_scene_xray` codec sources
(`fmt_ogf_exp.py`, `fmt_object_imp.py`, `skls_browser.py`).

The Python dictionaries are modelled as insertion-ordered association
lists (`dictGet` / `dictPut`), matching CPython's guaranteed iteration
order.  Machine floats that are only moved around (vertex positions,
normals, raw weight values on the import side) are modelled by their raw
32-bit patterns as natural numbers; floats that are computed with
(export-side weight blending) are modelled by exact rationals.
-/

namespace XRay

/-- Association-list model of a Python `dict.get`: the first matching key
wins (keys are unique by construction of `dictPut`). -/
def dictGet {K V : Type} [DecidableEq K] : List (K × V) → K → Option V
  | [], _ => none
  | (k, v) :: rest, key => if k = key then some v else dictGet rest key

/-- Association-list model of a Python `dict` assignment: overwrite an
existing key in place, otherwise append (insertion order preserved). -/
def dictPut {K V : Type} [DecidableEq K] : List (K × V) → K → V → List (K × V)
  | [], key, val => [(key, val)]
  | (k, v) :: rest, key, val =>
    if k = key then (k, val) :: rest else (k, v) :: dictPut rest key val

/-- First index of an element in a list, if present. -/
def idx {K : Type} [DecidableEq K] : List K → K → Option ℕ
  | [], _ => none
  | a :: l, k => if a = k then some 0 else (idx l k).map (· + 1)

/-- Append an element to an accumulator unless already present
(first-occurrence deduplication step). -/
def insertNew {K : Type} [DecidableEq K] (acc : List K) (k : K) : List K :=
  if k ∈ acc then acc else acc ++ [k]

/-! ## OGF export: vertex deduplication (`fmt_ogf_exp._export_child`, lines 82-96)

A face corner's deduplication key is the Python tuple
`(l.vert.index, co, normal, tangent, bitangent, uv)`.  The geometric part
(five float tuples) only ever participates in exact equality tests, so it
is abstracted to any type with decidable equality; the source vertex index
is kept explicit because the claims single it out. -/

/-- Deduplication key: `(source_vertex_index, geometric attributes)`. -/
abbrev Corner (A : Type) := ℕ × A

/-- State of the export loop: the `vertices` list and the `vmap` dict of
`fmt_ogf_exp._export_child`. -/
structure DedupState (A : Type) where
  vertices : List (Corner A)
  vmap : List (Corner A × ℕ)
  deriving DecidableEq

/-- One face corner of `_export_child`'s inner loop:
`vi = vmap.get(vtx); if vi is None: vmap[vtx] = vi = len(vertices);
vertices.append(vtx); ii.append(vi)`. -/
def dedupCorner {A : Type} [DecidableEq A] (st : DedupState A) (k : Corner A) :
    DedupState A × ℕ :=
  match dictGet st.vmap k with
  | some vi => (st, vi)
  | none =>
    (⟨st.vertices ++ [k], dictPut st.vmap k st.vertices.length⟩, st.vertices.length)

/-- The corner loop over a list of corners, threading the dedup state and
collecting the emitted indices in order. -/
def dedupRun {A : Type} [DecidableEq A] :
    DedupState A → List (Corner A) → DedupState A × List ℕ
  | st, [] => (st, [])
  | st, k :: ks =>
    let p := dedupCorner st k
    let q := dedupRun p.1 ks
    (q.1, p.2 :: q.2)

/-- The corners of a triangulated face, in loop order. -/
def faceCorners {A : Type} (f : Corner A × Corner A × Corner A) : List (Corner A) :=
  [f.1, f.2.1, f.2.2]

/-- `_export_child`'s vertex-deduplication pass over all (triangulated)
faces, starting from an empty `vertices` list and empty `vmap`. -/
def exportFaces {A : Type} [DecidableEq A]
    (faces : List (Corner A × Corner A × Corner A)) : DedupState A × List ℕ :=
  dedupRun ⟨[], []⟩ (faces.map faceCorners).flatten

/-! ## OGF export: bone-weight packing (`fmt_ogf_exp.max_two`, lines 40-55,
and `_export_child`, lines 98-144)

Vertex weight dictionaries (bone/vertex-group index → influence weight)
are modelled as insertion-ordered association lists over exact rationals.
Only the emitted bone-index slots and the blend factor are modelled; the
surrounding float fields are pass-through. -/

/-- The scanning loop shared by the two passes of `max_two`: walks the
dict in iteration order keeping the best key so far (`k0`) and its value
(`mx`), considering only entries whose key differs from `excl`
(`excl = none` for the first pass, which excludes nothing). -/
def argmaxGo (excl : Option ℕ) : List (ℕ × ℚ) → Option ℕ → ℚ → Option ℕ × ℚ
  | [], k0, mx => (k0, mx)
  | (k, v) :: rest, k0, mx =>
    if mx < v ∧ excl ≠ some k then argmaxGo excl rest (some k) v
    else argmaxGo excl rest k0 mx

/-- `fmt_ogf_exp.max_two`: first pass finds the key of the largest value,
second pass the key of the largest value among the remaining keys; the
result is `{k0: dic[k0], k1: dic[k1]}`.  `none` models the `KeyError`
raised by `dic[None]` when a pass finds no key. -/
def max_two (dic : List (ℕ × ℚ)) : Option (List (ℕ × ℚ)) :=
  match (argmaxGo none dic none (-1)).1,
      (argmaxGo (argmaxGo none dic none (-1)).1 dic none (-1)).1 with
  | some a, some b =>
    match dictGet dic a, dictGet dic b with
    | some va, some vb => some [(a, va), (b, vb)]
    | _, _ => none
  | _, _ => none

/-- The `len(vw) == 2` emission loop of `_export_child` (lines 123-132):
each iteration emits the bone index; the first iteration records `w0`, the
second computes `bw = 1 - w0 / (w0 + vw[vgi])`.  `none` models the
`ZeroDivisionError` when `w0 + vw[vgi] == 0`. -/
def packTwoLoop : List (ℕ × ℚ) → Bool → ℚ → ℚ → List ℕ → Option (List ℕ × ℚ)
  | [], _, _, bw, slots => some (slots, bw)
  | (vgi, w) :: rest, first, w0, bw, slots =>
    if first then packTwoLoop rest false w bw (slots ++ [vgi])
    else if w0 + w = 0 then none
    else packTwoLoop rest false w0 (1 - w0 / (w0 + w)) (slots ++ [vgi])

/-- The per-vertex multi-influence packing of `_export_child`
(lines 118-138): clamp to the two largest influences via `max_two` when
more than two are present, then emit bone slots and the blend factor; one
influence emits the bone index twice with `bw = 0`; an empty mapping is
the `raise Exception('oops ...')` path. -/
def packVert (vw : List (ℕ × ℚ)) : Option (List ℕ × ℚ) :=
  match (if 2 < vw.length then max_two vw else some vw) with
  | none => none
  | some vwB =>
    if vwB.length = 2 then packTwoLoop vwB true 0 0 []
    else if vwB.length = 1 then
      match vwB with
      | [(vgi, _)] => some ([vgi, vgi], 0)
      | _ => none
    else none

/-- `vwmx` of `_export_child` (lines 98-102): the maximum number of bone
influences over all vertices of the mesh. -/
def meshVwmx (vws : List (List (ℕ × ℚ))) : ℕ :=
  vws.foldl (fun mx vw => if mx < vw.length then vw.length else mx) 0

/-- Whether `_export_child` prints `warning: vwmx=...` for the mesh: the
multi-influence path is taken (`vwmx != 1`) and `vwmx != 2`
(lines 105, 114-116). -/
def meshWarn (vws : List (List (ℕ × ℚ))) : Bool :=
  if meshVwmx vws = 1 then false else decide (meshVwmx vws ≠ 2)

/-! ## Primitive codec (`xray_io.PackedReader`)

Modelled from the spec: `xray_io.py` is not under `src/`; §4.1 of the spec
fixes the contract — little-endian fixed-width reads over an in-memory
byte buffer with a cursor, failing on truncation; `gets` reads a
null-terminated string excluding the terminator; `offset`/`set_offset`/
`skip` manipulate the cursor directly.  Bytes are naturals below 256;
32-bit floats that are only moved around are read as their raw 4-byte
little-endian patterns. -/

/-- A `PackedReader`: byte buffer plus cursor. -/
structure PRState where
  data : List ℕ
  off : ℕ
  deriving DecidableEq

/-- Modelled from the spec: read one byte, advancing the cursor; `none` is
`TruncatedData`. -/
def getU8 (st : PRState) : Option (ℕ × PRState) :=
  match st.data.get? st.off with
  | some b => some (b, ⟨st.data, st.off + 1⟩)
  | none => none

/-- Modelled from the spec: read a little-endian `u16`. -/
def getU16 (st : PRState) : Option (ℕ × PRState) := do
  let (b0, st) ← getU8 st
  let (b1, st) ← getU8 st
  some (b0 + 256 * b1, st)

/-- Modelled from the spec: read a little-endian `u32`. -/
def getU32 (st : PRState) : Option (ℕ × PRState) := do
  let (b0, st) ← getU8 st
  let (b1, st) ← getU8 st
  let (b2, st) ← getU8 st
  let (b3, st) ← getU8 st
  some (b0 + 256 * b1 + 65536 * b2 + 16777216 * b3, st)

/-- Modelled from the spec: a 32-bit float field that is only stored, read
as its raw little-endian 4-byte pattern. -/
def getF32 (st : PRState) : Option (ℕ × PRState) := getU32 st

/-- Bytes before the first null, and the count of bytes consumed including
the null; `none` when no terminator exists (`TruncatedData`). -/
def takeUntilZero : List ℕ → Option (List ℕ × ℕ)
  | [] => none
  | b :: rest =>
    if b = 0 then some ([], 1)
    else (takeUntilZero rest).map (fun p => (b :: p.1, p.2 + 1))

/-- Modelled from the spec: `PackedReader.gets` — read a null-terminated
string (as its byte list, terminator excluded). -/
def gets (st : PRState) : Option (List ℕ × PRState) :=
  (takeUntilZero (st.data.drop st.off)).map (fun p => (p.1, ⟨st.data, st.off + p.2⟩))

/-- Read `n` consecutive `u32` values. -/
def getU32s : ℕ → PRState → Option (List ℕ × PRState)
  | 0, st => some ([], st)
  | n + 1, st => do
    let (x, st) ← getU32 st
    let (xs, st) ← getU32s n st
    some (x :: xs, st)

/-- Read `n` consecutive raw `f32` patterns. -/
def getF32s : ℕ → PRState → Option (List ℕ × PRState)
  | 0, st => some ([], st)
  | n + 1, st => do
    let (x, st) ← getF32 st
    let (xs, st) ← getF32s n st
    some (x :: xs, st)

/-- Read a raw `fff` triple. -/
def getF32x3 (st : PRState) : Option ((ℕ × ℕ × ℕ) × PRState) := do
  let (x, st) ← getF32 st
  let (y, st) ← getF32 st
  let (z, st) ← getF32 st
  some ((x, y, z), st)

/-- Read `n` raw `fff` triples. -/
def getF32x3s : ℕ → PRState → Option (List (ℕ × ℕ × ℕ) × PRState)
  | 0, st => some ([], st)
  | n + 1, st => do
    let (v, st) ← getF32x3 st
    let (vs, st) ← getF32x3s n st
    some (v :: vs, st)

/-- Read a raw `ff` pair. -/
def getF32x2 (st : PRState) : Option ((ℕ × ℕ) × PRState) := do
  let (x, st) ← getF32 st
  let (y, st) ← getF32 st
  some ((x, y), st)

/-- Read `n` raw `ff` pairs. -/
def getF32x2s : ℕ → PRState → Option (List (ℕ × ℕ) × PRState)
  | 0, st => some ([], st)
  | n + 1, st => do
    let (v, st) ← getF32x2 st
    let (vs, st) ← getF32x2s n st
    some (v :: vs, st)

/-- Read six consecutive `u32` values (one face record of the `FACES`
chunk). -/
def getU32x6 (st : PRState) :
    Option ((ℕ × ℕ × ℕ × ℕ × ℕ × ℕ) × PRState) := do
  let (a, st) ← getU32 st
  let (b, st) ← getU32 st
  let (c, st) ← getU32 st
  let (d, st) ← getU32 st
  let (e, st) ← getU32 st
  let (f, st) ← getU32 st
  some ((a, b, c, d, e, f), st)

/-- Little-endian serialization of a `u32` (write-side mirror of
`getU32`). -/
def putU32 (n : ℕ) : List ℕ :=
  [n % 256, n / 256 % 256, n / 65536 % 256, n / 16777216 % 256]

/-- Serialize a list of `u32` values. -/
def putU32s (l : List ℕ) : List ℕ := (l.map putU32).flatten

/-! ## Object import: mesh decode (`fmt_object_imp._import_mesh`)

The bmesh host objects are modelled by pure data: vertices as raw float
triples, faces as optional index triples (`none` is the `ValueError`
placeholder of lines 55-58), and the attribute assignments performed on
the host (smooth/seam marks, material indices, UV and deform-weight
writes) as explicit logs/dictionaries.  The float flip `1 - uv[1]`
performed on stored UV values is a host float operation on a value the
decoder never reads back; UV values are therefore logged as their raw bit
patterns. -/

/-- Errors of the import path.  Version errors carry the observed value
(the `raise Exception('unsupported ... version')` messages);
`indexError` is an uncaught Python `IndexError` from indexing past a
list's end; `truncated` is a `PackedReader` underrun; `keyError` a dict
lookup failure; `unknownVMapType` the `raise Exception('unknown vmap
type')` of line 141. -/
inductive ImpError where
  | unsupportedMeshVersion (v : ℕ)
  | unsupportedBoneVersion (v : ℕ)
  | unsupportedObjectVersion (v : ℕ)
  | truncated
  | indexError
  | keyError
  | unknownVMapType (t : ℕ)
  deriving DecidableEq

/-- Lift a `PackedReader` read: `none` becomes `TruncatedData`. -/
def req {α : Type} (o : Option α) : Except ImpError α :=
  match o with
  | some a => .ok a
  | none => .error .truncated

/-- A constructed bmesh face: its three vertex indices. -/
abbrev Face := ℕ × ℕ × ℕ

/-- A bmesh edge: the unordered pair of its endpoint indices, normalised
to `(min, max)`. -/
def epair (a b : ℕ) : ℕ × ℕ := if a ≤ b then (a, b) else (b, a)

/-- The three edges of a face, as bmesh exposes them. -/
def faceEdges (f : Face) : List (ℕ × ℕ) :=
  [epair f.1 f.2.1, epair f.2.1 f.2.2, epair f.2.2 f.1]

/-- Whether `vi` is one of the face's vertices (the
`if v.index == vi` scan of lines 121-124). -/
def faceHasVert (f : Face) (vi : ℕ) : Bool :=
  decide (vi = f.1 ∨ vi = f.2.1 ∨ vi = f.2.2)

/-- The vertex set of a face (bmesh rejects a new face whose vertex set
equals an existing face's). -/
def faceSetOf (f : Face) : Finset ℕ := {f.1, f.2.1, f.2.2}

/-- Whether the face's vertex set duplicates an existing (non-null)
face. -/
def dupFace (faces : List (Option Face)) (f : Face) : Bool :=
  faces.any (fun og =>
    match og with
    | some g => decide (faceSetOf g = faceSetOf f)
    | none => false)

/-- `bm.faces.new([bm.verts[vi] for vi in fr[::2]])` under
`try/except ValueError` (lines 55-58): an out-of-range vertex index is an
uncaught `IndexError`; a repeated vertex or a duplicate face raises
`ValueError`, caught and recorded as a `none` placeholder; otherwise the
face is built. -/
def faceNew (nverts : ℕ) (faces : List (Option Face)) (a b c : ℕ) :
    Except ImpError (Option Face) :=
  if a < nverts ∧ b < nverts ∧ c < nverts then
    if a = b ∨ b = c ∨ a = c ∨ dupFace faces (a, b, c) then .ok none
    else .ok (some (a, b, c))
  else .error .indexError

/-- The `FACES` chunk loop (lines 53-58): read six `u32`s per face, build
the face from indices `0, 2, 4`, appending exactly one (possibly null)
slot per face record. -/
def facesLoop (nverts : ℕ) :
    ℕ → PRState → List (Option Face) → Except ImpError (List (Option Face) × PRState)
  | 0, st, acc => .ok (acc, st)
  | n + 1, st, acc => do
    let (fr, st) ← req (getU32x6 st)
    let of ← faceNew nverts acc fr.1 fr.2.2.1 fr.2.2.2.2.1
    facesLoop nverts n st (acc ++ [of])

/-- Host-side state mutated by the smoothing-group chunk: the chunk-local
`edict` (edge → last recorded group id), faces marked smooth, edges marked
as seams, and edges marked not smooth. -/
structure SGAcc where
  edict : List ((ℕ × ℕ) × ℕ)
  faceSmooth : List ℕ
  seams : List (ℕ × ℕ)
  notSmooth : List (ℕ × ℕ)
  deriving DecidableEq

/-- One edge visit of the smoothing-group loop (lines 75-82): record the
group id if the edge is fresh; if it is recorded with a different id,
re-record the current id and mark the edge seam and not smooth. -/
def sgEdge (sg : ℕ) (ac : SGAcc) (e : ℕ × ℕ) : SGAcc :=
  match dictGet ac.edict e with
  | none => { ac with edict := dictPut ac.edict e sg }
  | some x =>
    if x ≠ sg then
      { edict := dictPut ac.edict e sg
        faceSmooth := ac.faceSmooth
        seams := e :: ac.seams
        notSmooth := e :: ac.notSmooth }
    else ac

/-- One face of the smoothing-group loop (lines 70-82): a null slot is
skipped; otherwise the face is marked smooth and each edge visited. -/
def sgFace (ac : SGAcc) (fi : ℕ) (of : Option Face) (sg : ℕ) : SGAcc :=
  match of with
  | none => ac
  | some f =>
    (faceEdges f).foldl (sgEdge sg) { ac with faceSmooth := fi :: ac.faceSmooth }

/-- The `enumerate` of line 69: group ids paired with face indices from
`fi` upward; `bmfaces[fi]` past the end is an uncaught `IndexError`. -/
def sgRunAux (faces : List (Option Face)) :
    List ℕ → ℕ → SGAcc → Except ImpError SGAcc
  | [], _, ac => .ok ac
  | sg :: rest, fi, ac =>
    match faces.get? fi with
    | none => .error .indexError
    | some of => sgRunAux faces rest (fi + 1) (sgFace ac fi of sg)

/-- The sequence of group ids with which an edge `e` is visited by the
smoothing-group loop, in face order (one entry per non-null face
containing `e`). -/
def sgVisitsAux (faces : List (Option Face)) :
    List ℕ → ℕ → (ℕ × ℕ) → List ℕ
  | [], _, _ => []
  | sg :: rest, fi, e =>
    (match faces.get? fi with
      | some (some f) => if e ∈ faceEdges f then [sg] else []
      | _ => []) ++ sgVisitsAux faces rest (fi + 1) e

/-- Whether a visit sequence, starting from an optional previously
recorded id, contains a visit whose id differs from the id recorded just
before it — the seam criterion. -/
def seamCondB : Option ℕ → List ℕ → Bool
  | _, [] => false
  | none, sg :: rest => seamCondB (some sg) rest
  | some x, sg :: rest => decide (x ≠ sg) || seamCondB (some sg) rest

/-- The last id of a visit sequence, falling back to a previously recorded
id. -/
def lastRecorded (prev : Option ℕ) (l : List ℕ) : Option ℕ :=
  l.foldl (fun _ x => some x) prev

/-- A face slot's edges are pairwise distinct (vacuous for a null
slot) — bmesh guarantees this for every constructed face. -/
def faceEdgesND : Option Face → Bool
  | none => true
  | some f => decide ((faceEdges f).Nodup)

/-- The per-material face-index assignment loop of the `SFACE` chunk
(lines 92-97): null slots are skipped, non-null slots get the material
index; an out-of-range face index is an uncaught `IndexError`. -/
def sfaceAssign (faces : List (Option Face)) (midx : ℕ) :
    List ℕ → List (ℕ × ℕ) → Except ImpError (List (ℕ × ℕ))
  | [], acc => .ok acc
  | fi :: rest, acc =>
    match faces.get? fi with
    | none => .error .indexError
    | some none => sfaceAssign faces midx rest acc
    | some (some _) => sfaceAssign faces midx rest (acc ++ [(fi, midx)])

/-- The disconnected UV assignment loop of the `VMAPS2` chunk
(lines 114-124): per `(uv, vi, fi)` triple, a null face slot is skipped, a
matching corner of a non-null face gets the UV value (logged keyed by
`(face index, vertex index)`); an out-of-range face index is an uncaught
`IndexError`. -/
def uvDisconLoop (faces : List (Option Face)) :
    List ((ℕ × ℕ) × ℕ × ℕ) → List ((ℕ × ℕ) × (ℕ × ℕ)) →
      Except ImpError (List ((ℕ × ℕ) × (ℕ × ℕ)))
  | [], acc => .ok acc
  | (uv, vi, fi) :: rest, acc =>
    match faces.get? fi with
    | none => .error .indexError
    | some none => uvDisconLoop faces rest acc
    | some (some f) =>
      if faceHasVert f vi then uvDisconLoop faces rest (acc ++ [((fi, vi), uv)])
      else uvDisconLoop faces rest acc

/-- The connected UV assignment loop (lines 126-128): each vertex gets the
UV value on all its link loops (logged keyed by vertex index);
`bm.verts[vi]` past the end is an uncaught `IndexError`. -/
def uvConnLoop (nverts : ℕ) :
    List ((ℕ × ℕ) × ℕ) → List (ℕ × (ℕ × ℕ)) →
      Except ImpError (List (ℕ × (ℕ × ℕ)))
  | [], acc => .ok acc
  | (uv, vi) :: rest, acc =>
    if vi < nverts then uvConnLoop nverts rest (acc ++ [(vi, uv)])
    else .error .indexError

/-- The connected weight assignment loop (lines 138-139):
`bm.verts[vi][bml][vgi] = vw` for each `(weight, vertex)` pair, a dict
write keyed by `(vertex index, vertex-group index)`. -/
def weightsConnLoop (nverts vgi : ℕ) :
    List (ℕ × ℕ) → List ((ℕ × ℕ) × ℕ) →
      Except ImpError (List ((ℕ × ℕ) × ℕ))
  | [], w => .ok w
  | (vw, vi) :: rest, w =>
    if vi < nverts then weightsConnLoop nverts vgi rest (dictPut w (vi, vgi) vw)
    else .error .indexError

/-- The decoded-mesh state: host objects modelled as pure data.
`matAssign` logs `(face index, material index)` writes, `uvDiscon` and
`uvConn` log UV writes (raw patterns), `weights` is the deform-weight dict
keyed by `(vertex index, vertex-group index)`, `warnings` collects
unknown chunk tags. -/
structure MeshState where
  verts : List (ℕ × ℕ × ℕ)
  bmfaces : List (Option Face)
  meshName : Option (List ℕ)
  sgAcc : SGAcc
  materials : List (List ℕ)
  matAssign : List (ℕ × ℕ)
  uvLayers : List (List ℕ)
  uvDiscon : List ((ℕ × ℕ) × (ℕ × ℕ))
  uvConn : List (ℕ × (ℕ × ℕ))
  weights : List ((ℕ × ℕ) × ℕ)
  vgroups : ℕ
  flags : Option ℕ
  options : Option (ℕ × ℕ)
  warnings : List ℕ
  deriving DecidableEq

/-- The fresh state at the top of `_import_mesh`. -/
def meshInit : MeshState :=
  ⟨[], [], none, ⟨[], [], [], []⟩, [], [], [], [], [], [], 0, none, none, []⟩

/-- The `VERTS` chunk handler (lines 47-50). -/
def handleVerts (ms : MeshState) (data : List ℕ) : Except ImpError MeshState := do
  let (cnt, st) ← req (getU32 ⟨data, 0⟩)
  let (vs, _) ← req (getF32x3s cnt st)
  .ok { ms with verts := ms.verts ++ vs }

/-- The `FACES` chunk handler (lines 51-59). -/
def handleFaces (ms : MeshState) (data : List ℕ) : Except ImpError MeshState := do
  let (cnt, st) ← req (getU32 ⟨data, 0⟩)
  let (fs, _) ← facesLoop ms.verts.length cnt st ms.bmfaces
  .ok { ms with bmfaces := fs }

/-- The `MESHNAME` chunk handler (lines 60-62). -/
def handleMeshName (ms : MeshState) (data : List ℕ) : Except ImpError MeshState := do
  let (n, _) ← req (gets ⟨data, 0⟩)
  .ok { ms with meshName := some n }

/-- The `SG` chunk handler (lines 63-82): `len(data) // 4` group ids, one
per face in order; the chunk-local `edict` starts empty, the persistent
marks carry over. -/
def handleSG (ms : MeshState) (data : List ℕ) : Except ImpError MeshState := do
  let (groups, _) ← req (getU32s (data.length / 4) ⟨data, 0⟩)
  let ac ← sgRunAux ms.bmfaces groups 0
    ⟨[], ms.sgAcc.faceSmooth, ms.sgAcc.seams, ms.sgAcc.notSmooth⟩
  .ok { ms with sgAcc := ac }

/-- The inner loop of the `SFACE` chunk handler (lines 85-97): per
surface, a material is appended and the listed face slots get its
index. -/
def sfaceLoop : ℕ → MeshState → PRState → Except ImpError MeshState
  | 0, ms, _ => .ok ms
  | n + 1, ms, st => do
    let (nm, st) ← req (gets st)
    let midx := ms.materials.length
    let (cnt, st) ← req (getU32 st)
    let (fis, st) ← req (getU32s cnt st)
    let ma ← sfaceAssign ms.bmfaces midx fis ms.matAssign
    sfaceLoop n { ms with materials := ms.materials ++ [nm], matAssign := ma } st

/-- The `SFACE` chunk handler (lines 83-97). -/
def handleSFace (ms : MeshState) (data : List ℕ) : Except ImpError MeshState := do
  let (cnt, st) ← req (getU16 ⟨data, 0⟩)
  sfaceLoop cnt ms st

/-- One entry of the `VMAPS2` chunk (lines 102-141): name, dimension byte,
disconnected flag, type (low two bits), size, then the per-type payload.
Type 0 is a UV map (get-or-create the named layer, then disconnected or
connected assignment); type 1 is a weight map (a vertex group is created,
then for the disconnected variant the weights, vertex indices and
face-corner indices are read but no weight is written, while the
connected variant writes each weight); any other type raises. -/
def vmapOne (ms : MeshState) (st : PRState) :
    Except ImpError (MeshState × PRState) := do
  let (n, st) ← req (gets st)
  let (_, st) ← req (getU8 st)
  let (d, st) ← req (getU8 st)
  let (t, st) ← req (getU8 st)
  let (sz, st) ← req (getU32 st)
  let typ := t % 4
  if typ = 0 then do
    let ms := if n ∈ ms.uvLayers then ms else { ms with uvLayers := ms.uvLayers ++ [n] }
    let (uvs, st) ← req (getF32x2s sz st)
    let (vtx, st) ← req (getU32s sz st)
    if d ≠ 0 then do
      let (fcs, st) ← req (getU32s sz st)
      let log ← uvDisconLoop ms.bmfaces (uvs.zip (vtx.zip fcs)) ms.uvDiscon
      .ok ({ ms with uvDiscon := log }, st)
    else do
      let log ← uvConnLoop ms.verts.length (uvs.zip vtx) ms.uvConn
      .ok ({ ms with uvConn := log }, st)
  else if typ = 1 then do
    let vgi := ms.vgroups
    let ms := { ms with vgroups := ms.vgroups + 1 }
    let (wgs, st) ← req (getF32s sz st)
    let (vtx, st) ← req (getU32s sz st)
    if d ≠ 0 then do
      let (_, st) ← req (getU32s sz st)
      .ok (ms, st)
    else do
      let w ← weightsConnLoop ms.verts.length vgi (wgs.zip vtx) ms.weights
      .ok ({ ms with weights := w }, st)
  else .error (.unknownVMapType typ)

/-- The `VMAPS2` entry loop. -/
def vmapsLoop : ℕ → MeshState → PRState → Except ImpError MeshState
  | 0, ms, _ => .ok ms
  | n + 1, ms, st => do
    let (ms, st) ← vmapOne ms st
    vmapsLoop n ms st

/-- The `VMAPS2` chunk handler (lines 100-141). -/
def handleVMaps (ms : MeshState) (data : List ℕ) : Except ImpError MeshState := do
  let (cnt, st) ← req (getU32 ⟨data, 0⟩)
  vmapsLoop cnt ms st

/-- The `FLAGS` chunk handler (line 143). -/
def handleFlags (ms : MeshState) (data : List ℕ) : Except ImpError MeshState := do
  let (b, _) ← req (getU8 ⟨data, 0⟩)
  .ok { ms with flags := some b }

/-- The `OPTIONS` chunk handler (line 147). -/
def handleOptions (ms : MeshState) (data : List ℕ) : Except ImpError MeshState := do
  let (a, st) ← req (getU32 ⟨data, 0⟩)
  let (b, _) ← req (getU32 st)
  .ok { ms with options := some (a, b) }

/-! ## Object import: chunk dispatch and version checks -/

namespace Chunks

namespace Mesh

/-- Modelled from the spec: the mesh chunk-tag constants live in
`fmt_object.py`, which is not under `src/`; the spec fixes only that tags
are `u32` values and that dispatch is by exact tag equality, so the
constants are represented by arbitrary pairwise-distinct values.  No claim
depends on the numeric values. -/
def VERSION : ℕ := 1

def MESHNAME : ℕ := 2

def FLAGS : ℕ := 3

def BBOX : ℕ := 4

def VERTS : ℕ := 5

def FACES : ℕ := 6

def SG : ℕ := 7

def SFACE : ℕ := 8

def VMREFS : ℕ := 9

def VMAPS2 : ℕ := 10

def OPTIONS : ℕ := 11

end Mesh

end Chunks

/-- The mesh chunk tags with a dedicated branch in `_import_mesh`'s
dispatch loop (lines 46-147); everything else falls to
`warn_imknown_chunk` (lines 148-149). -/
def meshKnownTags : List ℕ :=
  [Chunks.Mesh.VERTS, Chunks.Mesh.FACES, Chunks.Mesh.MESHNAME, Chunks.Mesh.SG,
    Chunks.Mesh.SFACE, Chunks.Mesh.VMREFS, Chunks.Mesh.VMAPS2,
    Chunks.Mesh.FLAGS, Chunks.Mesh.BBOX, Chunks.Mesh.OPTIONS]

/-- One iteration of `_import_mesh`'s dispatch loop: recognized tags run
their handler (`VMREFS` and `BBOX` are explicit no-ops); an unrecognized
tag is recorded as a warning and the state passes through unchanged. -/
def meshChunkStep (ms : MeshState) (c : ℕ × List ℕ) : Except ImpError MeshState :=
  if c.1 = Chunks.Mesh.VERTS then handleVerts ms c.2
  else if c.1 = Chunks.Mesh.FACES then handleFaces ms c.2
  else if c.1 = Chunks.Mesh.MESHNAME then handleMeshName ms c.2
  else if c.1 = Chunks.Mesh.SG then handleSG ms c.2
  else if c.1 = Chunks.Mesh.SFACE then handleSFace ms c.2
  else if c.1 = Chunks.Mesh.VMREFS then .ok ms
  else if c.1 = Chunks.Mesh.VMAPS2 then handleVMaps ms c.2
  else if c.1 = Chunks.Mesh.FLAGS then handleFlags ms c.2
  else if c.1 = Chunks.Mesh.BBOX then .ok ms
  else if c.1 = Chunks.Mesh.OPTIONS then handleOptions ms c.2
  else .ok { ms with warnings := ms.warnings ++ [c.1] }

/-- `_import_mesh`'s `for (cid, data) in cr` loop over the remaining
chunks. -/
def meshChunksRun (ms : MeshState) : List (ℕ × List ℕ) → Except ImpError MeshState
  | [] => .ok ms
  | c :: rest =>
    match meshChunkStep ms c with
    | .error e => .error e
    | .ok ms2 => meshChunksRun ms2 rest

/-- The `MESH` version check of lines 37-39: only `0x11` is accepted; a
mismatch raises carrying the observed value. -/
def meshCheckVersion (v : ℕ) : Except ImpError Unit :=
  if v ≠ 0x11 then .error (.unsupportedMeshVersion v) else .ok ()

/-- The `BONE` version check of lines 155-157: only `0x2` is accepted. -/
def boneCheckVersion (v : ℕ) : Except ImpError Unit :=
  if v ≠ 0x2 then .error (.unsupportedBoneVersion v) else .ok ()

/-- The object `MAIN` version check of lines 227-229: only `0x10` is
accepted. -/
def objectCheckVersion (v : ℕ) : Except ImpError Unit :=
  if v ≠ 0x10 then .error (.unsupportedObjectVersion v) else .ok ()

/-- `_import_mesh` over its version word and remaining chunk sequence. -/
def importMesh (version : ℕ) (chunks : List (ℕ × List ℕ)) :
    Except ImpError MeshState :=
  match meshCheckVersion version with
  | .error e => .error e
  | .ok _ => meshChunksRun meshInit chunks

/-! ## Object import: bone bind transforms
(`fmt_object_imp._import_bone`, lines 164-177)

`mathutils` matrices are host objects; the model keeps only what the code
does with them: compose `bonemat.get(parent, Identity) *
Matrix.Translation(offset) * Euler(rotate, ZXY).to_matrix().to_4x4()` and
store the result under the bone's name.  The matrix algebra is abstracted
to an arbitrary monoid `M` with uninterpreted constructors `Tr` and `Eu`
for the translation and Euler factors; offsets and rotations are raw
`fff` patterns. -/

/-- The per-bone fields read before the bind computation. -/
structure BoneRec where
  name : List ℕ
  parent : List ℕ
  offset : ℕ × ℕ × ℕ
  rotate : ℕ × ℕ × ℕ
  deriving DecidableEq

/-- Line 174-175 of `_import_bone`: look up the parent's stored matrix
(identity when absent), multiply the translation and Euler factors on the
right, and store under the bone's name. -/
def boneMatStep {M : Type} [Monoid M] (Tr Eu : (ℕ × ℕ × ℕ) → M)
    (bonemat : List (List ℕ × M)) (b : BoneRec) : List (List ℕ × M) :=
  dictPut bonemat b.name
    (((dictGet bonemat b.parent).getD 1) * Tr b.offset * Eu b.rotate)

/-- The `bonemat` dict after processing the first `k` bones in file
order (`_import_main` feeds `_import_bone` one shared `bonemat`). -/
def boneMats {M : Type} [Monoid M] (Tr Eu : (ℕ × ℕ × ℕ) → M)
    (bones : List BoneRec) (k : ℕ) : List (List ℕ × M) :=
  (bones.take k).foldl (boneMatStep Tr Eu) []

/-- The whole bone pass. -/
def importBones {M : Type} [Monoid M] (Tr Eu : (ℕ × ℕ × ℕ) → M)
    (bones : List BoneRec) : List (List ℕ × M) :=
  bones.foldl (boneMatStep Tr Eu) []

/-- The matrix line 174 computes for the bone at position `i` (with the
`bonemat` contents that step sees). -/
def codeMat {M : Type} [Monoid M] (Tr Eu : (ℕ × ℕ × ℕ) → M)
    (bones : List BoneRec) (i : ℕ) : M :=
  match bones.get? i with
  | none => 1
  | some b =>
    ((dictGet (boneMats Tr Eu bones i) b.parent).getD 1) * Tr b.offset * Eu b.rotate

/-- The largest index `j` below the bound whose bone is named `nm`, if
any — the bone whose stored matrix a later `bonemat.get` would find. -/
def lastNamed (bones : List BoneRec) (nm : List ℕ) : ℕ → Option ℕ
  | 0 => none
  | j + 1 =>
    if (bones.get? j).map BoneRec.name = some nm then some j
    else lastNamed bones nm j

/-! ## Texture image cache (`fmt_object_imp.ImportContext.image`,
lines 19-24)

`bpy.data.images.load` is a host call returning a fresh image object; the
model allocates fresh numeric ids and logs each load with its normalised
path.  The cache dict is a per-context field (`self.__images`). -/

/-- `os.path.sep` on the reference platform. -/
def pathSep : Char := '/'

/-- Line 20: `relpath.lower().replace('\\', os.path.sep)`. -/
def normPath (p : List Char) : List Char :=
  (p.map Char.toLower).map (fun c => if c = '\\' then pathSep else c)

/-- One import context's image state: the `self.__images` dict, the log of
performed loads (by normalised path), and a fresh-id counter standing for
the host's image objects. -/
structure ImageCtx where
  images : List (List Char × ℕ)
  loads : List (List Char)
  nextId : ℕ
  deriving DecidableEq

/-- A fresh `ImportContext` (empty `self.__images`). -/
def ctxInit : ImageCtx := ⟨[], [], 0⟩

/-- Occurrence count of an element in a list (used to state that a load
happens at most once per normalised path). -/
def countOcc {α : Type} [DecidableEq α] : List α → α → ℕ
  | [], _ => 0
  | x :: rest, a => (if x = a then 1 else 0) + countOcc rest a

/-- `ImportContext.image` (lines 19-24): normalise, look up, and on a miss
load and cache. -/
def ctxImage (cx : ImageCtx) (relpath : List Char) : ℕ × ImageCtx :=
  match dictGet cx.images (normPath relpath) with
  | some r => (r, cx)
  | none =>
    (cx.nextId,
      ⟨dictPut cx.images (normPath relpath) cx.nextId,
        cx.loads ++ [normPath relpath], cx.nextId + 1⟩)

/-- A sequence of `image` calls on one context, collecting the returned
image objects in order. -/
def runImagesR (cx : ImageCtx) : List (List Char) → ImageCtx × List ℕ
  | [] => (cx, [])
  | p :: ps =>
    let r := ctxImage cx p
    let q := runImagesR r.2 ps
    (q.1, r.1 :: q.2)

/-! ## Motion container index (`skls_browser.SklsFile._index_animations`,
lines 68-81)

`_skip_motion_rest` lives in `xray_motions.py`, which is not under
`src/`; per the spec it is the external skip-length calculator: positioned
at the offset just after the clip's name it returns the number of bytes
spanning the rest of the clip, so the cursor lands on the next clip
header.  The indexer is parameterized by that calculator. -/

/-- The `_index_animations` loop: per clip, record the offset of the
name's first byte, read the name, remember the offset after the name,
read the `(start, end)` frame pair, store
`(offset, end - start)` under the name, then reposition to the after-name
offset plus the externally computed skip. -/
def indexAnims (skipCalc : List ℕ → ℕ → ℕ) :
    ℕ → PRState → List (List ℕ × (ℕ × ℤ)) → Option (List (List ℕ × (ℕ × ℤ)))
  | 0, _, anims => some anims
  | n + 1, st, anims => do
    let offset := st.off
    let (name, st1) ← gets st
    let offset2 := st1.off
    let (r0, st2) ← getU32 st1
    let (r1, _) ← getU32 st2
    let anims2 := dictPut anims name (offset, (r1 : ℤ) - (r0 : ℤ))
    indexAnims skipCalc n ⟨st.data, offset2 + skipCalc st.data offset2⟩ anims2

/-- `_index_animations` over a whole buffer: read the clip count, then
index that many clips starting right after it. -/
def indexAnimations (skipCalc : List ℕ → ℕ → ℕ) (data : List ℕ) :
    Option (List (List ℕ × (ℕ × ℤ))) := do
  let (cnt, st) ← getU32 ⟨data, 0⟩
  indexAnims skipCalc cnt st []

/-- One motion clip of a well-formed `.skls` container. -/
structure Clip where
  name : List ℕ
  startF : ℕ
  endF : ℕ
  body : List ℕ
  deriving DecidableEq

/-- A clip's byte layout: null-terminated name, `(start, end)` frame pair,
then the keyframe body. -/
def clipBytes (c : Clip) : List ℕ :=
  c.name ++ 0 :: (putU32 c.startF ++ (putU32 c.endF ++ c.body))

/-- A container: `u32` clip count followed by the clips. -/
def containerBytes (cs : List Clip) : List ℕ :=
  putU32 cs.length ++ (cs.map clipBytes).flatten

/-- The byte offset of clip `i`'s first name byte inside the container
(4 bytes of count, then the earlier clips). -/
def clipStartAt (base : ℕ) (cs : List Clip) (i : ℕ) : ℕ :=
  base + ((cs.take i).map (fun c => (clipBytes c).length)).sum

/-- The offset of clip `i`'s name inside `containerBytes`. -/
def clipStart (cs : List Clip) (i : ℕ) : ℕ := clipStartAt 4 cs i

/-- Offsets-after-name paired with the byte count from there to the next
clip header, for each clip of a container laid out from `base`. -/
def skipTable : List Clip → ℕ → List (ℕ × ℕ)
  | [], _ => []
  | c :: rest, base =>
    (base + (c.name.length + 1), 8 + c.body.length) ::
      skipTable rest (base + (clipBytes c).length)

/-- Modelled from the spec: `xray_motions._skip_motion_rest` is not under
`src/`; §6 fixes its contract — positioned at the offset just after a
clip's name it returns the number of bytes spanning the rest of that clip
(frame pair plus body), exactly.  For a well-formed container this is the
table lookup below. -/
def specSkip (cs : List Clip) (_data : List ℕ) (off : ℕ) : ℕ :=
  (dictGet (skipTable cs 4) off).getD 0

/-! ## Helper lemmas -/

theorem dictGet_append {K V : Type} [DecidableEq K] (l₁ l₂ : List (K × V)) (k : K) :
    dictGet (l₁ ++ l₂) k = (dictGet l₁ k).orElse (fun _ => dictGet l₂ k) := by
  induction l₁ with
  | nil => simp [dictGet]
  | cons p rest ih =>
    obtain ⟨a, v⟩ := p
    by_cases h : a = k <;> simp [dictGet, h, ih]

theorem dictPut_of_get_none {K V : Type} [DecidableEq K] (l : List (K × V)) (k : K) (v : V)
    (h : dictGet l k = none) : dictPut l k v = l ++ [(k, v)] := by
  induction l with
  | nil => simp [dictPut]
  | cons p rest ih =>
    obtain ⟨a, w⟩ := p
    by_cases hak : a = k
    · simp [dictGet, hak] at h
    · simp [dictGet, hak] at h
      simp [dictPut, hak, ih h]

theorem idx_mem_iff {K : Type} [DecidableEq K] (l : List K) (k : K) :
    k ∈ l ↔ (idx l k).isSome := by
  induction l with
  | nil => simp [idx]
  | cons a rest ih =>
    simp only [idx, List.mem_cons]
    by_cases h : a = k
    · simp [h]
    · have hne : ¬ k = a := fun hh => h hh.symm
      simp only [h, if_false, hne, false_or]
      rw [ih]
      cases idx rest k <;> simp

theorem idx_append_left {K : Type} [DecidableEq K] (l₂ : List K) (k : K) :
    ∀ l₁ : List K, k ∈ l₁ → idx (l₁ ++ l₂) k = idx l₁ k := by
  intro l₁
  induction l₁ with
  | nil => intro h; simp at h
  | cons a rest ih =>
    intro h
    by_cases hak : a = k
    · simp [idx, hak]
    · have hk : k ∈ rest := by
        rcases List.mem_cons.mp h with hh | hh
        · exact absurd hh.symm hak
        · exact hh
      simp [idx, hak, ih hk]

theorem idx_append_right {K : Type} [DecidableEq K] (l₂ : List K) (k : K) :
    ∀ l₁ : List K, k ∉ l₁ → idx (l₁ ++ l₂) k = (idx l₂ k).map (l₁.length + ·) := by
  intro l₁
  induction l₁ with
  | nil =>
    intro _
    rw [List.nil_append]
    cases idx l₂ k <;> simp
  | cons a rest ih =>
    intro h
    have hak : ¬ a = k := fun hh => h (by simp [hh])
    have hk : k ∉ rest := fun hh => h (by simp [hh])
    rw [List.cons_append]
    simp only [idx, hak, if_false, ih hk, Option.map_map]
    cases idx l₂ k with
    | none => rfl
    | some n =>
      show some (rest.length + n + 1) = some ((a :: rest).length + n)
      rw [List.length_cons]
      congr 1
      omega

theorem idx_get {K : Type} [DecidableEq K] (l : List K) (k : K) (i : ℕ)
    (h : idx l k = some i) : l.get? i = some k := by
  induction l generalizing i with
  | nil => simp [idx] at h
  | cons a rest ih =>
    by_cases hak : a = k
    · simp [idx, hak] at h
      subst h hak
      rfl
    · simp [idx, hak] at h
      obtain ⟨j, hj, hji⟩ := h
      subst hji
      simpa using ih j hj

theorem idx_lt_length {K : Type} [DecidableEq K] (l : List K) (k : K) (i : ℕ)
    (h : idx l k = some i) : i < l.length := by
  have := idx_get l k i h
  exact List.get?_eq_some.mp this |>.1

theorem idx_inj {K : Type} [DecidableEq K] (l : List K) (k₁ k₂ : K) (i : ℕ)
    (h₁ : idx l k₁ = some i) (h₂ : idx l k₂ = some i) : k₁ = k₂ := by
  have g₁ := idx_get l k₁ i h₁
  have g₂ := idx_get l k₂ i h₂
  rw [g₁] at g₂
  exact Option.some_injective _ g₂

theorem insertNew_sub {K : Type} [DecidableEq K] (acc : List K) (k : K) :
    ∃ t, insertNew acc k = acc ++ t := by
  unfold insertNew
  by_cases h : k ∈ acc
  · exact ⟨[], by simp [h]⟩
  · exact ⟨[k], by simp [h]⟩

theorem foldl_insertNew_sub {K : Type} [DecidableEq K] (ks : List K) (acc : List K) :
    ∃ t, ks.foldl insertNew acc = acc ++ t := by
  induction ks generalizing acc with
  | nil => exact ⟨[], by simp⟩
  | cons k ks ih =>
    obtain ⟨t₁, h₁⟩ := insertNew_sub acc k
    obtain ⟨t₂, h₂⟩ := ih (insertNew acc k)
    refine ⟨t₁ ++ t₂, ?_⟩
    rw [List.foldl_cons, h₂, h₁, List.append_assoc]

theorem foldl_insertNew_nodup {K : Type} [DecidableEq K] (ks : List K) (acc : List K)
    (h : acc.Nodup) : (ks.foldl insertNew acc).Nodup := by
  induction ks generalizing acc with
  | nil => simpa
  | cons k ks ih =>
    refine ih (insertNew acc k) ?_
    unfold insertNew
    by_cases hk : k ∈ acc
    · simpa [hk]
    · simp [hk, List.nodup_append, h]

theorem foldl_insertNew_mem {K : Type} [DecidableEq K] (ks : List K) (acc : List K)
    (k : K) : k ∈ ks.foldl insertNew acc ↔ k ∈ acc ∨ k ∈ ks := by
  induction ks generalizing acc with
  | nil => simp
  | cons a ks ih =>
    rw [List.foldl_cons, ih]
    unfold insertNew
    by_cases ha : a ∈ acc
    · simp only [ha, if_true, List.mem_cons]
      constructor
      · rintro (h | h)
        · exact Or.inl h
        · exact Or.inr (Or.inr h)
      · rintro (h | h | h)
        · exact Or.inl h
        · exact Or.inl (h ▸ ha)
        · exact Or.inr h
    · simp only [ha, if_false, List.mem_append, List.mem_singleton, List.mem_cons]
      tauto

/-! ### Deduplication invariant and run lemma -/

/-- The `vmap` dict of the export loop is exactly the first-index table of
the `vertices` list. -/
def DedupInv {A : Type} [DecidableEq A] (st : DedupState A) : Prop :=
  ∀ k, dictGet st.vmap k = idx st.vertices k

theorem dedupCorner_spec {A : Type} [DecidableEq A] (st : DedupState A)
    (k : Corner A) (hInv : DedupInv st) :
    DedupInv (dedupCorner st k).1 ∧
      (dedupCorner st k).1.vertices = insertNew st.vertices k ∧
      idx (dedupCorner st k).1.vertices k = some (dedupCorner st k).2 := by
  unfold dedupCorner
  cases hG : dictGet st.vmap k with
  | some vi =>
    have hidx : idx st.vertices k = some vi := (hInv k).symm.trans hG
    have hmem : k ∈ st.vertices := (idx_mem_iff _ _).mpr (by simp [hidx])
    refine ⟨hInv, ?_, ?_⟩
    · simp [insertNew, hmem]
    · simpa using hidx
  | none =>
    have hidx : idx st.vertices k = none := (hInv k).symm.trans hG
    have hmem : k ∉ st.vertices := fun hm => by
      have := (idx_mem_iff st.vertices k).mp hm
      simp [hidx] at this
    have hput : dictPut st.vmap k st.vertices.length =
        st.vmap ++ [(k, st.vertices.length)] := dictPut_of_get_none _ _ _ hG
    have hk_new : idx (st.vertices ++ [k]) k = some st.vertices.length := by
      rw [idx_append_right _ _ _ hmem]
      simp [idx]
    refine ⟨?_, ?_, ?_⟩
    · intro k'
      simp only [hput, dictGet_append]
      by_cases hk' : k' = k
      · subst hk'
        simp [hG, hk_new, dictGet]
      · have hkk' : ¬ k = k' := fun h => hk' h.symm
        have hsingle : dictGet [(k, st.vertices.length)] k' = none := by
          simp [dictGet, hkk']
        rw [hsingle]
        by_cases hmem' : k' ∈ st.vertices
        · rw [idx_append_left _ _ _ hmem', ← hInv k']
          cases dictGet st.vmap k' <;> rfl
        · rw [idx_append_right _ _ _ hmem']
          have hik : idx [k] k' = none := by simp [idx, hkk']
          rw [hik]
          have hidx2 : idx st.vertices k' = none := by
            cases hI : idx st.vertices k' with
            | none => rfl
            | some j => exact absurd ((idx_mem_iff _ _).mpr (by simp [hI])) hmem'
          have hnone : dictGet st.vmap k' = none := (hInv k').trans hidx2
          simp [hnone]
    · simp [insertNew, hmem]
    · simpa using hk_new

theorem dedupRun_spec {A : Type} [DecidableEq A] :
    ∀ (ks : List (Corner A)) (st : DedupState A), DedupInv st →
      DedupInv (dedupRun st ks).1 ∧
        (dedupRun st ks).1.vertices = ks.foldl insertNew st.vertices ∧
        List.Forall₂ (fun k i => idx (dedupRun st ks).1.vertices k = some i)
          ks (dedupRun st ks).2 := by
  intro ks
  induction ks with
  | nil =>
    intro st hInv
    exact ⟨hInv, rfl, List.Forall₂.nil⟩
  | cons k ks ih =>
    intro st hInv
    obtain ⟨hInv', hverts', hidx'⟩ := dedupCorner_spec st k hInv
    obtain ⟨hInvF, hvertsF, hallF⟩ := ih (dedupCorner st k).1 hInv'
    have hsub : ∃ t, (dedupRun (dedupCorner st k).1 ks).1.vertices =
        (dedupCorner st k).1.vertices ++ t := by
      rw [hvertsF]
      exact foldl_insertNew_sub ks _
    obtain ⟨t, ht⟩ := hsub
    have hmemk : k ∈ (dedupCorner st k).1.vertices :=
      (idx_mem_iff _ _).mpr (by simp [hidx'])
    have hidxF : idx (dedupRun (dedupCorner st k).1 ks).1.vertices k =
        some (dedupCorner st k).2 := by
      rw [ht, idx_append_left _ _ _ hmemk]
      exact hidx'
    refine ⟨?_, ?_, ?_⟩
    · show DedupInv (dedupRun st (k :: ks)).1
      simp only [dedupRun]
      exact hInvF
    · show (dedupRun st (k :: ks)).1.vertices = _
      simp only [dedupRun, List.foldl_cons]
      rw [hvertsF, hverts']
    · show List.Forall₂ _ (k :: ks) (dedupRun st (k :: ks)).2
      simp only [dedupRun]
      exact List.Forall₂.cons hidxF hallF

theorem flatten_faceCorners_length {A : Type}
    (faces : List (Corner A × Corner A × Corner A)) :
    ((faces.map faceCorners).flatten).length = 3 * faces.length := by
  induction faces with
  | nil => rfl
  | cons f fs ih =>
    simp only [List.map_cons, List.flatten_cons, List.length_append, ih,
      List.length_cons, List.length_nil, faceCorners]
    omega

/-- C1: for every exported mesh, vertex deduplication maps each face-corner
through a table keyed by the exact tuple
`(source_vertex_index, position, normal, tangent, bitangent, uv)`:
two corners with identical tuples receive the same output vertex index
(conjunct 2); two corners with different tuples — in particular corners
differing only in `source_vertex_index` — receive different output indices
(conjunct 3); the output vertex count equals the number of distinct keys
(conjunct 4); and every triangle is re-expressed as three indices into the
deduplicated list (conjuncts 1 and 5: three emitted indices per face, each
a valid index into the deduplicated vertex list). -/
theorem C1_vertex_dedup {A : Type} [DecidableEq A]
    (faces : List (Corner A × Corner A × Corner A)) :
    (exportFaces faces).2.length = 3 * faces.length ∧
    (∀ i j (hi : i < ((faces.map faceCorners).flatten).length)
        (hj : j < ((faces.map faceCorners).flatten).length),
        ((faces.map faceCorners).flatten).get ⟨i, hi⟩ =
            ((faces.map faceCorners).flatten).get ⟨j, hj⟩ →
          (exportFaces faces).2.get? i = (exportFaces faces).2.get? j) ∧
    (∀ i j (hi : i < ((faces.map faceCorners).flatten).length)
        (hj : j < ((faces.map faceCorners).flatten).length),
        ((faces.map faceCorners).flatten).get ⟨i, hi⟩ ≠
            ((faces.map faceCorners).flatten).get ⟨j, hj⟩ →
          (exportFaces faces).2.get? i ≠ (exportFaces faces).2.get? j) ∧
    (exportFaces faces).1.vertices.length =
      ((faces.map faceCorners).flatten).toFinset.card ∧
    (∀ i (hi : i < (exportFaces faces).2.length),
        (exportFaces faces).2.get ⟨i, hi⟩ < (exportFaces faces).1.vertices.length) := by
  simp only [exportFaces]
  have hInv0 : DedupInv (⟨[], []⟩ : DedupState A) := fun k => rfl
  obtain ⟨hInvF, hverts, hall⟩ :=
    dedupRun_spec ((faces.map faceCorners).flatten) ⟨[], []⟩ hInv0
  have hlen := hall.length_eq
  have hget := (List.forall₂_iff_get.mp hall).2
  have hnodup :
      (dedupRun (⟨[], []⟩ : DedupState A) ((faces.map faceCorners).flatten)).1.vertices.Nodup := by
    rw [hverts]
    exact foldl_insertNew_nodup _ _ List.nodup_nil
  refine ⟨?_, ?_, ?_, ?_, ?_⟩
  · rw [← hlen, flatten_faceCorners_length]
  · intro i j hi hj heq
    have hi' : i <
        (dedupRun (⟨[], []⟩ : DedupState A) ((faces.map faceCorners).flatten)).2.length :=
      hlen ▸ hi
    have hj' : j <
        (dedupRun (⟨[], []⟩ : DedupState A) ((faces.map faceCorners).flatten)).2.length :=
      hlen ▸ hj
    have gi := hget i hi hi'
    have gj := hget j hj hj'
    rw [heq, gj] at gi
    rw [List.get?_eq_get hi', List.get?_eq_get hj', Option.some_injective _ gi]
  · intro i j hi hj hne heq
    have hi' : i <
        (dedupRun (⟨[], []⟩ : DedupState A) ((faces.map faceCorners).flatten)).2.length :=
      hlen ▸ hi
    have hj' : j <
        (dedupRun (⟨[], []⟩ : DedupState A) ((faces.map faceCorners).flatten)).2.length :=
      hlen ▸ hj
    have gi := hget i hi hi'
    have gj := hget j hj hj'
    rw [List.get?_eq_get hi', List.get?_eq_get hj'] at heq
    rw [Option.some_injective _ heq] at gi
    exact hne (idx_inj _ _ _ _ gi gj)
  · have hfin :
        (dedupRun (⟨[], []⟩ : DedupState A) ((faces.map faceCorners).flatten)).1.vertices.toFinset =
          ((faces.map faceCorners).flatten).toFinset := by
      apply Finset.ext
      intro k
      simp only [List.mem_toFinset]
      rw [hverts, foldl_insertNew_mem]
      simp
    rw [← List.toFinset_card_of_nodup hnodup, hfin]
  · intro i hi
    have hi0 : i < ((faces.map faceCorners).flatten).length := by
      rw [hlen]
      exact hi
    have gi := hget i hi0 hi
    exact idx_lt_length _ _ _ gi

/-- Concrete check of C1: two faces whose corners 0 and 3 carry identical
key tuples get the same output index, corners 0 and 1 share all geometric
attributes but differ in source vertex index and get different output
indices, and the deduplicated vertex count is the number of distinct keys. -/
theorem C1_vertex_dedup_witness :
    (exportFaces [(((0 : ℕ), (5 : ℕ)), ((1 : ℕ), (5 : ℕ)), ((2 : ℕ), (7 : ℕ))),
        (((0 : ℕ), (5 : ℕ)), ((3 : ℕ), (5 : ℕ)), ((2 : ℕ), (7 : ℕ)))]).2.get? 0 =
      (exportFaces [(((0 : ℕ), (5 : ℕ)), ((1 : ℕ), (5 : ℕ)), ((2 : ℕ), (7 : ℕ))),
        (((0 : ℕ), (5 : ℕ)), ((3 : ℕ), (5 : ℕ)), ((2 : ℕ), (7 : ℕ)))]).2.get? 3 ∧
    (exportFaces [(((0 : ℕ), (5 : ℕ)), ((1 : ℕ), (5 : ℕ)), ((2 : ℕ), (7 : ℕ))),
        (((0 : ℕ), (5 : ℕ)), ((3 : ℕ), (5 : ℕ)), ((2 : ℕ), (7 : ℕ)))]).2.get? 0 ≠
      (exportFaces [(((0 : ℕ), (5 : ℕ)), ((1 : ℕ), (5 : ℕ)), ((2 : ℕ), (7 : ℕ))),
        (((0 : ℕ), (5 : ℕ)), ((3 : ℕ), (5 : ℕ)), ((2 : ℕ), (7 : ℕ)))]).2.get? 1 ∧
    (exportFaces [(((0 : ℕ), (5 : ℕ)), ((1 : ℕ), (5 : ℕ)), ((2 : ℕ), (7 : ℕ))),
        (((0 : ℕ), (5 : ℕ)), ((3 : ℕ), (5 : ℕ)), ((2 : ℕ), (7 : ℕ)))]).1.vertices.length = 4 := by
  have h := C1_vertex_dedup
    [(((0 : ℕ), (5 : ℕ)), ((1 : ℕ), (5 : ℕ)), ((2 : ℕ), (7 : ℕ))),
     (((0 : ℕ), (5 : ℕ)), ((3 : ℕ), (5 : ℕ)), ((2 : ℕ), (7 : ℕ)))]
  refine ⟨h.2.1 0 3 (by decide) (by decide) (by decide),
    h.2.2.1 0 1 (by decide) (by decide) (by decide), ?_⟩
  rw [h.2.2.2.1]
  decide

/-! ### Weight-packing lemmas -/

theorem dictGet_of_mem_nodup {K V : Type} [DecidableEq K] :
    ∀ (l : List (K × V)), (l.map Prod.fst).Nodup →
      ∀ (k : K) (v : V), (k, v) ∈ l → dictGet l k = some v := by
  intro l
  induction l with
  | nil => intro _ k v h; simp at h
  | cons p rest ih =>
    intro hnd k v hmem
    obtain ⟨a, w⟩ := p
    rcases List.mem_cons.mp hmem with hh | hh
    · obtain ⟨h1, h2⟩ := Prod.mk.injEq .. ▸ hh
      cases hh
      simp [dictGet]
    · have hka : ¬ a = k := by
        intro hak
        subst hak
        have : a ∈ rest.map Prod.fst := List.mem_map.mpr ⟨(a, v), hh, rfl⟩
        exact (List.nodup_cons.mp (by simpa using hnd)).1 this
      simp only [dictGet, hka, if_false]
      exact ih (List.nodup_cons.mp (by simpa using hnd)).2 k v hh

theorem argmaxGo_mono (excl : Option ℕ) :
    ∀ (l : List (ℕ × ℚ)) (k0 : Option ℕ) (mx : ℚ), mx ≤ (argmaxGo excl l k0 mx).2 := by
  intro l
  induction l with
  | nil => intro k0 mx; simp [argmaxGo]
  | cons p rest ih =>
    intro k0 mx
    obtain ⟨k, v⟩ := p
    show (if mx < v ∧ excl ≠ some k then argmaxGo excl rest (some k) v
        else argmaxGo excl rest k0 mx).2 ≥ mx
    by_cases h : mx < v ∧ excl ≠ some k
    · rw [if_pos h]
      exact le_of_lt (lt_of_lt_of_le h.1 (ih _ v))
    · rw [if_neg h]
      exact ih _ mx

theorem argmaxGo_le (excl : Option ℕ) :
    ∀ (l : List (ℕ × ℚ)) (k0 : Option ℕ) (mx : ℚ) (k : ℕ) (v : ℚ),
      (k, v) ∈ l → excl ≠ some k → v ≤ (argmaxGo excl l k0 mx).2 := by
  intro l
  induction l with
  | nil => intro _ _ k v h _; simp at h
  | cons p rest ih =>
    intro k0 mx k v hmem hexcl
    obtain ⟨a, w⟩ := p
    show v ≤ (if mx < w ∧ excl ≠ some a then argmaxGo excl rest (some a) w
        else argmaxGo excl rest k0 mx).2
    rcases List.mem_cons.mp hmem with hh | hh
    · cases hh
      by_cases h : mx < v ∧ excl ≠ some k
      · rw [if_pos h]
        exact argmaxGo_mono excl rest _ v
      · rw [if_neg h]
        have hvm : ¬ mx < v := fun hlt => h ⟨hlt, hexcl⟩
        exact le_trans (le_of_not_lt hvm) (argmaxGo_mono excl rest k0 mx)
    · by_cases h : mx < w ∧ excl ≠ some a
      · rw [if_pos h]
        exact ih _ w k v hh hexcl
      · rw [if_neg h]
        exact ih k0 mx k v hh hexcl

theorem argmaxGo_sound (excl : Option ℕ) :
    ∀ (l : List (ℕ × ℚ)) (k0 : Option ℕ) (mx : ℚ),
      argmaxGo excl l k0 mx = (k0, mx) ∨
        ∃ k v, (k, v) ∈ l ∧ argmaxGo excl l k0 mx = (some k, v) ∧ excl ≠ some k := by
  intro l
  induction l with
  | nil => intro k0 mx; exact Or.inl rfl
  | cons p rest ih =>
    intro k0 mx
    obtain ⟨a, w⟩ := p
    by_cases h : mx < w ∧ excl ≠ some a
    · have hstep : argmaxGo excl ((a, w) :: rest) k0 mx = argmaxGo excl rest (some a) w := by
        show (if mx < w ∧ excl ≠ some a then argmaxGo excl rest (some a) w
            else argmaxGo excl rest k0 mx) = _
        rw [if_pos h]
      rw [hstep]
      rcases ih (some a) w with hl | ⟨k, v, hm, he, hx⟩
      · exact Or.inr ⟨a, w, List.mem_cons_self .., hl, h.2⟩
      · exact Or.inr ⟨k, v, List.mem_cons_of_mem _ hm, he, hx⟩
    · have hstep : argmaxGo excl ((a, w) :: rest) k0 mx = argmaxGo excl rest k0 mx := by
        show (if mx < w ∧ excl ≠ some a then argmaxGo excl rest (some a) w
            else argmaxGo excl rest k0 mx) = _
        rw [if_neg h]
      rw [hstep]
      rcases ih k0 mx with hl | ⟨k, v, hm, he, hx⟩
      · exact Or.inl hl
      · exact Or.inr ⟨k, v, List.mem_cons_of_mem _ hm, he, hx⟩

theorem argmaxGo_found (excl : Option ℕ) (l : List (ℕ × ℚ)) (k : ℕ) (v : ℚ)
    (hmem : (k, v) ∈ l) (hexcl : excl ≠ some k) (hv : 0 ≤ v) :
    ∃ b vb, (b, vb) ∈ l ∧ argmaxGo excl l none (-1) = (some b, vb) ∧ excl ≠ some b := by
  rcases argmaxGo_sound excl l none (-1) with hl | hr
  · exfalso
    have := argmaxGo_le excl l none (-1) k v hmem hexcl
    rw [hl] at this
    have : (0 : ℚ) ≤ -1 := le_trans hv this
    norm_num at this
  · exact hr

theorem foldl_len_max_ge_acc :
    ∀ (vws : List (List (ℕ × ℚ))) (acc : ℕ),
      acc ≤ vws.foldl (fun mx vw => if mx < vw.length then vw.length else mx) acc := by
  intro vws
  induction vws with
  | nil => intro acc; exact le_refl _
  | cons vw rest ih =>
    intro acc
    rw [List.foldl_cons]
    by_cases h : acc < vw.length
    · rw [if_pos h]
      exact le_trans (le_of_lt h) (ih _)
    · rw [if_neg h]
      exact ih _

theorem foldl_len_max_ge_mem :
    ∀ (vws : List (List (ℕ × ℚ))) (acc : ℕ) (vw : List (ℕ × ℚ)), vw ∈ vws →
      vw.length ≤ vws.foldl (fun mx vw => if mx < vw.length then vw.length else mx) acc := by
  intro vws
  induction vws with
  | nil => intro _ vw h; simp at h
  | cons w rest ih =>
    intro acc vw hmem
    rw [List.foldl_cons]
    rcases List.mem_cons.mp hmem with hh | hh
    · subst hh
      by_cases h : acc < vw.length
      · rw [if_pos h]
        exact foldl_len_max_ge_acc rest _
      · rw [if_neg h]
        exact le_trans (le_of_not_lt h) (foldl_len_max_ge_acc rest _)
    · by_cases h : acc < w.length
      · rw [if_pos h]
        exact ih _ vw hh
      · rw [if_neg h]
        exact ih _ vw hh

/-- C2: in the multi-influence packing path, a vertex with exactly two bone
influences is emitted with both bone-index slots (in dict iteration order)
and the single blend factor `bw = 1 - w0 / (w0 + w1)` where `w0` is the
weight of the first-iterated influence; a vertex with exactly one
influence is emitted with two equal bone-index slots and `bw = 0`. -/
theorem C2_two_influence_blend (a b : ℕ) (wa wb : ℚ) (hab : a ≠ b)
    (hsum : wa + wb ≠ 0) :
    packVert [(a, wa), (b, wb)] = some ([a, b], 1 - wa / (wa + wb)) ∧
    ∀ (c : ℕ) (wc : ℚ), packVert [(c, wc)] = some ([c, c], 0) := by
  constructor
  · simp [packVert, packTwoLoop, hsum]
  · intro c wc
    simp [packVert, packTwoLoop]

/-- Concrete check of C2 at the spec's example weights `{5: 0.3, 9: 0.7}`
(first-encountered influence is bone 5): slots `(5, 9)` and
`bw = 1 - 0.3/1.0 = 0.7`; and a single influence `{4: 1}` emits `(4, 4)`
with `bw = 0`. -/
theorem C2_two_influence_blend_witness :
    packVert [((5 : ℕ), (3 : ℚ)/10), (9, 7/10)] = some ([5, 9], 7/10) ∧
    packVert [((4 : ℕ), (1 : ℚ))] = some ([4, 4], 0) := by
  have h := C2_two_influence_blend 5 9 (3/10) (7/10) (by decide) (by norm_num)
  refine ⟨?_, h.2 4 1⟩
  rw [h.1]
  norm_num

/-- C3: when a vertex carries more than two bone influences at export,
`max_two` retains exactly two influences of the input dict, with distinct
bone indices, whose weights dominate every discarded influence
(`v1 ≤ v0` and every other weight `≤ v1`), and the mesh gets a console
warning (`meshWarn` is set whenever some vertex has more than two
influences). -/
theorem C3_two_largest_retained (vw : List (ℕ × ℚ)) (hlen : 2 < vw.length)
    (hnd : (vw.map Prod.fst).Nodup) (hnn : ∀ p ∈ vw, 0 ≤ p.2) :
    (∃ k0 v0 k1 v1, max_two vw = some [(k0, v0), (k1, v1)] ∧
        (k0, v0) ∈ vw ∧ (k1, v1) ∈ vw ∧ k0 ≠ k1 ∧ v1 ≤ v0 ∧
        (∀ p ∈ vw, p.1 ≠ k0 → p.1 ≠ k1 → p.2 ≤ v1)) ∧
    (∀ vws : List (List (ℕ × ℚ)), vw ∈ vws → meshWarn vws = true) := by
  constructor
  · -- first pass
    obtain ⟨p, rest, hvw⟩ : ∃ p rest, vw = p :: rest := by
      cases vw with
      | nil => simp at hlen
      | cons p rest => exact ⟨p, rest, rfl⟩
    have hp_mem : p ∈ vw := hvw ▸ List.mem_cons_self ..
    obtain ⟨a, va, hamem, ha_eq, _⟩ :=
      argmaxGo_found none vw p.1 p.2 (by simpa using hp_mem) (by simp)
        (hnn p hp_mem)
    have hmax1 : ∀ q ∈ vw, q.2 ≤ va := by
      intro q hq
      have := argmaxGo_le none vw none (-1) q.1 q.2 (by simpa using hq) (by simp)
      rw [ha_eq] at this
      exact this
    -- an entry with a key other than `a` exists
    obtain ⟨q, hq_mem, hq_ne⟩ : ∃ q ∈ vw, q.1 ≠ a := by
      obtain ⟨p1, p2, rest2, hvw2⟩ : ∃ p1 p2 rest2, vw = p1 :: p2 :: rest2 := by
        cases vw with
        | nil => simp at hlen
        | cons p1 t =>
          cases t with
          | nil => simp at hlen
          | cons p2 rest2 => exact ⟨p1, p2, rest2, rfl⟩
      have h12 : p1.1 ≠ p2.1 := by
        rw [hvw2] at hnd
        simp only [List.map_cons, List.nodup_cons, List.mem_cons, List.mem_map] at hnd
        exact fun h => hnd.1 (Or.inl h)
      by_cases h1 : p1.1 = a
      · exact ⟨p2, by rw [hvw2]; simp, fun h => h12 (h1.trans h.symm)⟩
      · exact ⟨p1, by rw [hvw2]; simp, h1⟩
    -- second pass with `excl = some a`
    have hexq : (argmaxGo none vw none (-1)).1 ≠ some q.1 := by
      rw [ha_eq]
      simp only [ne_eq, Option.some.injEq]
      exact fun h => hq_ne (h.symm)
    obtain ⟨b, vb, hbmem, hb_eq, hb_ne⟩ :=
      argmaxGo_found (argmaxGo none vw none (-1)).1 vw q.1 q.2
        (by simpa using hq_mem) hexq (hnn q hq_mem)
    have hmax2 : ∀ r ∈ vw, r.1 ≠ a → r.2 ≤ vb := by
      intro r hr hra
      have hex : (argmaxGo none vw none (-1)).1 ≠ some r.1 := by
        rw [ha_eq]
        simp only [ne_eq, Option.some.injEq]
        exact fun h => hra h.symm
      have := argmaxGo_le (argmaxGo none vw none (-1)).1 vw none (-1) r.1 r.2
        (by simpa using hr) hex
      rw [hb_eq] at this
      exact this
    have hba : b ≠ a := by
      rw [ha_eq] at hb_ne
      simp only [ne_eq, Option.some.injEq] at hb_ne
      exact fun h => hb_ne h.symm
    have hga : dictGet vw a = some va := dictGet_of_mem_nodup vw hnd a va hamem
    have hgb : dictGet vw b = some vb := dictGet_of_mem_nodup vw hnd b vb hbmem
    refine ⟨a, va, b, vb, ?_, hamem, hbmem, fun h => hba h.symm, hmax1 (b, vb) hbmem, ?_⟩
    · have h1 : (argmaxGo none vw none (-1)).1 = some a := by rw [ha_eq]
      have h2 : (argmaxGo (some a) vw none (-1)).1 = some b := by
        rw [← h1, hb_eq]
      simp only [max_two, h1, h2, hga, hgb]
    · intro r hr hr0 hr1
      exact hmax2 r hr hr0
  · intro vws hmem
    have h3 : 3 ≤ meshVwmx vws :=
      le_trans hlen (foldl_len_max_ge_mem vws 0 vw hmem)
    unfold meshWarn
    rw [if_neg (by omega)]
    simp only [decide_eq_true_eq]
    omega

/-- Concrete check of C3 at the spec's example `{1: 0.1, 2: 0.2, 3: 0.7}`:
`max_two` keeps exactly bones 3 and 2 (with their weights), and a mesh
containing that vertex gets the console warning. -/
theorem C3_two_largest_retained_witness :
    max_two [((1 : ℕ), (1 : ℚ)/10), (2, 2/10), (3, 7/10)] =
        some [(3, 7/10), (2, 2/10)] ∧
    meshWarn [[((1 : ℕ), (1 : ℚ)/10), (2, 2/10), (3, 7/10)]] = true := by
  constructor
  · norm_num [max_two, argmaxGo, dictGet]
    simp
  · exact (C3_two_largest_retained [((1 : ℕ), (1 : ℚ)/10), (2, 2/10), (3, 7/10)]
      (by decide) (by norm_num [List.nodup_cons]) (by norm_num)).2
      [[((1 : ℕ), (1 : ℚ)/10), (2, 2/10), (3, 7/10)]] (by simp)

/-- C6: each version field is checked exactly against one supported value
per format (`MESH` against `0x11`, `BONE` against `0x2`, object `MAIN`
against `0x10`); any mismatch produces an unsupported-version error
carrying the observed value, fatal to that sub-record; an unrecognized
chunk tag is non-fatal: it is recorded as a warning and decoding continues
with the next chunk from an otherwise unchanged state. -/
theorem C6_version_and_unknown_tags :
    (∀ v, meshCheckVersion v = Except.ok () ↔ v = 0x11) ∧
    (∀ v, v ≠ 0x11 →
      meshCheckVersion v = Except.error (ImpError.unsupportedMeshVersion v)) ∧
    (∀ v, boneCheckVersion v = Except.ok () ↔ v = 0x2) ∧
    (∀ v, v ≠ 0x2 →
      boneCheckVersion v = Except.error (ImpError.unsupportedBoneVersion v)) ∧
    (∀ v, objectCheckVersion v = Except.ok () ↔ v = 0x10) ∧
    (∀ v, v ≠ 0x10 →
      objectCheckVersion v = Except.error (ImpError.unsupportedObjectVersion v)) ∧
    (∀ (ms : MeshState) (cid : ℕ) (d : List ℕ) (rest : List (ℕ × List ℕ)),
      cid ∉ meshKnownTags →
        meshChunksRun ms ((cid, d) :: rest) =
          meshChunksRun { ms with warnings := ms.warnings ++ [cid] } rest) := by
  refine ⟨?_, ?_, ?_, ?_, ?_, ?_, ?_⟩
  · intro v
    unfold meshCheckVersion
    by_cases h : v = 0x11 <;> simp [h]
  · intro v h
    simp [meshCheckVersion, h]
  · intro v
    unfold boneCheckVersion
    by_cases h : v = 0x2 <;> simp [h]
  · intro v h
    simp [boneCheckVersion, h]
  · intro v
    unfold objectCheckVersion
    by_cases h : v = 0x10 <;> simp [h]
  · intro v h
    simp [objectCheckVersion, h]
  · intro ms cid d rest hcid
    simp only [meshKnownTags, List.mem_cons, List.not_mem_nil, or_false,
      not_or] at hcid
    obtain ⟨h1, h2, h3, h4, h5, h6, h7, h8, h9, h10⟩ := hcid
    simp only [meshChunksRun, meshChunkStep, h1, h2, h3, h4, h5, h6, h7, h8,
      h9, h10, if_false]

/-- Concrete check of C6: wrong version words fail with the observed value
in the error; a buffer with one synthetic unrecognized tag followed by a
recognized `FLAGS` chunk records a warning for the former and still
decodes the latter. -/
theorem C6_version_and_unknown_tags_witness :
    meshCheckVersion 0x12 = Except.error (ImpError.unsupportedMeshVersion 0x12) ∧
    boneCheckVersion 3 = Except.error (ImpError.unsupportedBoneVersion 3) ∧
    objectCheckVersion 0x11 = Except.error (ImpError.unsupportedObjectVersion 0x11) ∧
    meshChunksRun meshInit [(999, []), (Chunks.Mesh.FLAGS, [7])] =
      Except.ok { meshInit with warnings := [999], flags := some 7 } := by
  have h := C6_version_and_unknown_tags
  refine ⟨h.2.1 0x12 (by decide), h.2.2.2.1 3 (by decide),
    h.2.2.2.2.2.1 0x11 (by decide), ?_⟩
  rw [h.2.2.2.2.2.2 meshInit 999 [] [(Chunks.Mesh.FLAGS, [7])] (by decide)]
  rfl

/-! ### Smoothing-group lemmas -/

theorem dictGet_dictPut_self {K V : Type} [DecidableEq K] :
    ∀ (l : List (K × V)) (k : K) (v : V), dictGet (dictPut l k v) k = some v := by
  intro l k v
  induction l with
  | nil => simp [dictPut, dictGet]
  | cons p rest ih =>
    obtain ⟨a, w⟩ := p
    by_cases h : a = k
    · subst h
      simp [dictPut, dictGet]
    · simp [dictPut, dictGet, h, ih]

theorem dictGet_dictPut_ne {K V : Type} [DecidableEq K] :
    ∀ (l : List (K × V)) (k k' : K) (v : V), k' ≠ k →
      dictGet (dictPut l k v) k' = dictGet l k' := by
  intro l k k' v hne
  have hkk : ¬ k = k' := fun h => hne h.symm
  induction l with
  | nil => simp [dictPut, dictGet, hkk]
  | cons p rest ih =>
    obtain ⟨a, w⟩ := p
    by_cases h : a = k
    · subst h
      simp [dictPut, dictGet, hkk]
    · simp only [dictPut, h, if_false]
      by_cases h' : a = k'
      · simp [dictGet, h']
      · simp [dictGet, h', ih]

theorem sgEdge_self (sg : ℕ) (ac : SGAcc) (e : ℕ × ℕ) :
    dictGet (sgEdge sg ac e).edict e = some sg ∧
    (sgEdge sg ac e).faceSmooth = ac.faceSmooth ∧
    (∀ e', (e' ∈ (sgEdge sg ac e).seams ↔
      e' ∈ ac.seams ∨ (e' = e ∧ ∃ x, dictGet ac.edict e = some x ∧ x ≠ sg))) ∧
    (∀ e', (e' ∈ (sgEdge sg ac e).notSmooth ↔
      e' ∈ ac.notSmooth ∨ (e' = e ∧ ∃ x, dictGet ac.edict e = some x ∧ x ≠ sg))) ∧
    (∀ e', e' ≠ e → dictGet (sgEdge sg ac e).edict e' = dictGet ac.edict e') := by
  unfold sgEdge
  split
  next hG =>
    refine ⟨dictGet_dictPut_self _ _ _, rfl, ?_, ?_, ?_⟩
    · intro e'
      simp [hG]
    · intro e'
      simp [hG]
    · intro e' hne
      exact dictGet_dictPut_ne _ _ _ _ hne
  next x hG =>
    by_cases hx : x ≠ sg
    · rw [if_pos hx]
      refine ⟨dictGet_dictPut_self _ _ _, rfl, ?_, ?_, ?_⟩
      · intro e'
        rw [hG]
        simp only [List.mem_cons, Option.some.injEq]
        constructor
        · rintro (rfl | h)
          · exact Or.inr ⟨rfl, x, rfl, hx⟩
          · exact Or.inl h
        · rintro (h | ⟨rfl, y, rfl, hy⟩)
          · exact Or.inr h
          · exact Or.inl rfl
      · intro e'
        rw [hG]
        simp only [List.mem_cons, Option.some.injEq]
        constructor
        · rintro (rfl | h)
          · exact Or.inr ⟨rfl, x, rfl, hx⟩
          · exact Or.inl h
        · rintro (h | ⟨rfl, y, rfl, hy⟩)
          · exact Or.inr h
          · exact Or.inl rfl
      · intro e' hne
        exact dictGet_dictPut_ne _ _ _ _ hne
    · rw [if_neg hx]
      have hxs : x = sg := not_not.mp hx
      subst hxs
      refine ⟨hG, rfl, ?_, ?_, ?_⟩
      · intro e'
        rw [hG]
        simp only [Option.some.injEq]
        constructor
        · exact fun h => Or.inl h
        · rintro (h | ⟨rfl, y, rfl, hy⟩)
          · exact h
          · exact absurd rfl hy
      · intro e'
        rw [hG]
        simp only [Option.some.injEq]
        constructor
        · exact fun h => Or.inl h
        · rintro (h | ⟨rfl, y, rfl, hy⟩)
          · exact h
          · exact absurd rfl hy
      · intro e' _
        rfl

theorem sgFold_faceSmooth (sg : ℕ) :
    ∀ (es : List (ℕ × ℕ)) (ac : SGAcc),
      (es.foldl (sgEdge sg) ac).faceSmooth = ac.faceSmooth := by
  intro es
  induction es with
  | nil => intro ac; rfl
  | cons a es ih =>
    intro ac
    rw [List.foldl_cons, ih]
    exact (sgEdge_self sg ac a).2.1

theorem sgFold_not_mem (sg : ℕ) :
    ∀ (es : List (ℕ × ℕ)) (ac : SGAcc) (e : ℕ × ℕ), e ∉ es →
      dictGet (es.foldl (sgEdge sg) ac).edict e = dictGet ac.edict e ∧
      (e ∈ (es.foldl (sgEdge sg) ac).seams ↔ e ∈ ac.seams) ∧
      (e ∈ (es.foldl (sgEdge sg) ac).notSmooth ↔ e ∈ ac.notSmooth) := by
  intro es
  induction es with
  | nil => intro ac e _; exact ⟨rfl, Iff.rfl, Iff.rfl⟩
  | cons a es ih =>
    intro ac e h
    have hea : e ≠ a := fun hh => h (by simp [hh])
    have hes : e ∉ es := fun hh => h (by simp [hh])
    obtain ⟨h1, h2, h3⟩ := ih (sgEdge sg ac a) e hes
    obtain ⟨g1, g2, g3, g4, g5⟩ := sgEdge_self sg ac a
    rw [List.foldl_cons]
    refine ⟨?_, ?_, ?_⟩
    · rw [h1, g5 e hea]
    · rw [h2, g3 e]
      simp [hea]
    · rw [h3, g4 e]
      simp [hea]

theorem sgFold_mem (sg : ℕ) :
    ∀ (es : List (ℕ × ℕ)) (ac : SGAcc) (e : ℕ × ℕ), es.Nodup → e ∈ es →
      dictGet (es.foldl (sgEdge sg) ac).edict e = some sg ∧
      (e ∈ (es.foldl (sgEdge sg) ac).seams ↔
        e ∈ ac.seams ∨ ∃ x, dictGet ac.edict e = some x ∧ x ≠ sg) ∧
      (e ∈ (es.foldl (sgEdge sg) ac).notSmooth ↔
        e ∈ ac.notSmooth ∨ ∃ x, dictGet ac.edict e = some x ∧ x ≠ sg) := by
  intro es
  induction es with
  | nil => intro ac e _ h; simp at h
  | cons a es ih =>
    intro ac e hnd hmem
    rw [List.foldl_cons]
    obtain ⟨g1, g2, g3, g4, g5⟩ := sgEdge_self sg ac a
    rcases List.mem_cons.mp hmem with he | he
    · subst he
      have hnotin : e ∉ es := (List.nodup_cons.mp hnd).1
      obtain ⟨h1, h2, h3⟩ := sgFold_not_mem sg es (sgEdge sg ac e) e hnotin
      refine ⟨by rw [h1, g1], ?_, ?_⟩
      · rw [h2, g3 e]
        simp
      · rw [h3, g4 e]
        simp
    · by_cases hea : e = a
      · subst hea
        exact absurd he (List.nodup_cons.mp hnd).1
      · obtain ⟨h1, h2, h3⟩ := ih (sgEdge sg ac a) e (List.nodup_cons.mp hnd).2 he
        rw [g5 e hea] at h2 h3
        refine ⟨h1, ?_, ?_⟩
        · rw [h2, g3 e]
          simp [hea]
        · rw [h3, g4 e]
          simp [hea]

theorem sgFace_some_spec (ac : SGAcc) (fi : ℕ) (f : Face) (sg : ℕ)
    (hnd : (faceEdges f).Nodup) :
    (sgFace ac fi (some f) sg).faceSmooth = fi :: ac.faceSmooth ∧
    (∀ e ∈ faceEdges f,
      dictGet (sgFace ac fi (some f) sg).edict e = some sg ∧
      (e ∈ (sgFace ac fi (some f) sg).seams ↔
        e ∈ ac.seams ∨ ∃ x, dictGet ac.edict e = some x ∧ x ≠ sg) ∧
      (e ∈ (sgFace ac fi (some f) sg).notSmooth ↔
        e ∈ ac.notSmooth ∨ ∃ x, dictGet ac.edict e = some x ∧ x ≠ sg)) ∧
    (∀ e, e ∉ faceEdges f →
      dictGet (sgFace ac fi (some f) sg).edict e = dictGet ac.edict e ∧
      (e ∈ (sgFace ac fi (some f) sg).seams ↔ e ∈ ac.seams) ∧
      (e ∈ (sgFace ac fi (some f) sg).notSmooth ↔ e ∈ ac.notSmooth)) := by
  refine ⟨?_, ?_, ?_⟩
  · show ((faceEdges f).foldl (sgEdge sg) _).faceSmooth = _
    rw [sgFold_faceSmooth]
  · intro e he
    exact sgFold_mem sg (faceEdges f) _ e hnd he
  · intro e he
    exact sgFold_not_mem sg (faceEdges f) _ e he

theorem seamCond_cons_iff (prev : Option ℕ) (sg : ℕ) (l : List ℕ) (P : Prop) :
    ((P ∨ ∃ x, prev = some x ∧ x ≠ sg) ∨ seamCondB (some sg) l = true) ↔
      (P ∨ seamCondB prev (sg :: l) = true) := by
  cases prev with
  | none =>
    simp only [seamCondB]
    constructor
    · rintro ((h | ⟨x, hx, _⟩) | h)
      · exact Or.inl h
      · exact absurd hx (by simp)
      · exact Or.inr h
    · rintro (h | h)
      · exact Or.inl (Or.inl h)
      · exact Or.inr h
  | some x =>
    simp only [seamCondB, Bool.or_eq_true, decide_eq_true_eq]
    constructor
    · rintro ((h | ⟨y, hy, hy2⟩) | h)
      · exact Or.inl h
      · obtain rfl : x = y := Option.some_injective _ hy
        exact Or.inr (Or.inl hy2)
      · exact Or.inr (Or.inr h)
    · rintro (h | h | h)
      · exact Or.inl (Or.inl h)
      · exact Or.inl (Or.inr ⟨x, rfl, h⟩)
      · exact Or.inr h

theorem sgRun_char (faces : List (Option Face))
    (hnd : ∀ of ∈ faces, faceEdgesND of = true) :
    ∀ (groups : List ℕ) (fi : ℕ) (ac : SGAcc),
      fi + groups.length ≤ faces.length →
      ∃ acF, sgRunAux faces groups fi ac = .ok acF ∧
        (∀ e, dictGet acF.edict e =
          lastRecorded (dictGet ac.edict e) (sgVisitsAux faces groups fi e)) ∧
        (∀ e, (e ∈ acF.seams ↔ e ∈ ac.seams ∨
          seamCondB (dictGet ac.edict e) (sgVisitsAux faces groups fi e) = true)) ∧
        (∀ e, (e ∈ acF.notSmooth ↔ e ∈ ac.notSmooth ∨
          seamCondB (dictGet ac.edict e) (sgVisitsAux faces groups fi e) = true)) ∧
        (∀ j, (j ∈ acF.faceSmooth ↔ j ∈ ac.faceSmooth ∨
          (fi ≤ j ∧ j < fi + groups.length ∧ ∃ f, faces.get? j = some (some f)))) := by
  intro groups
  induction groups with
  | nil =>
    intro fi ac _
    refine ⟨ac, rfl, fun e => rfl, ?_, ?_, ?_⟩
    · intro e
      simp [sgVisitsAux, seamCondB]
    · intro e
      simp [sgVisitsAux, seamCondB]
    · intro j
      constructor
      · exact fun h => Or.inl h
      · rintro (h | ⟨h1, h2, _⟩)
        · exact h
        · simp only [List.length_nil] at h2
          omega
  | cons sg rest ih =>
    intro fi ac hlen
    have hfi : fi < faces.length := by
      simp only [List.length_cons] at hlen
      omega
    obtain ⟨of, hof⟩ : ∃ of, faces.get? fi = some of := by
      rw [List.get?_eq_get hfi]
      exact ⟨_, rfl⟩
    have hlen' : (fi + 1) + rest.length ≤ faces.length := by
      simp only [List.length_cons] at hlen
      omega
    cases of with
    | none =>
      obtain ⟨acF, hrun, hed, hseam, hns, hfs⟩ := ih (fi + 1) ac hlen'
      refine ⟨acF, ?_, ?_, ?_, ?_, ?_⟩
      · simp only [sgRunAux, hof]
        exact hrun
      · intro e
        simp only [sgVisitsAux, hof, List.nil_append]
        exact hed e
      · intro e
        simp only [sgVisitsAux, hof, List.nil_append]
        exact hseam e
      · intro e
        simp only [sgVisitsAux, hof, List.nil_append]
        exact hns e
      · intro j
        rw [hfs j]
        constructor
        · rintro (hj | ⟨hj1, hj2, hj3⟩)
          · exact Or.inl hj
          · exact Or.inr ⟨by omega, by simp only [List.length_cons]; omega, hj3⟩
        · rintro (hj | ⟨hj1, hj2, hj3⟩)
          · exact Or.inl hj
          · by_cases hjf : j = fi
            · subst hjf
              obtain ⟨f, hf⟩ := hj3
              rw [hof] at hf
              exact absurd (Option.some_injective _ hf) (by simp)
            · exact Or.inr ⟨by omega, by simp only [List.length_cons] at hj2; omega, hj3⟩
    | some f =>
      have hndf : (faceEdges f).Nodup := by
        have := hnd (some f) (List.get?_mem hof)
        simpa [faceEdgesND] using this
      obtain ⟨hfs1, hmem_spec, hnotmem_spec⟩ := sgFace_some_spec ac fi f sg hndf
      obtain ⟨acF, hrun, hed, hseam, hns, hfs⟩ :=
        ih (fi + 1) (sgFace ac fi (some f) sg) hlen'
      refine ⟨acF, ?_, ?_, ?_, ?_, ?_⟩
      · simp only [sgRunAux, hof]
        exact hrun
      · intro e
        rw [hed e]
        simp only [sgVisitsAux, hof]
        by_cases he : e ∈ faceEdges f
        · rw [if_pos he, (hmem_spec e he).1]
          rfl
        · rw [if_neg he, (hnotmem_spec e he).1]
          rfl
      · intro e
        rw [hseam e]
        simp only [sgVisitsAux, hof]
        by_cases he : e ∈ faceEdges f
        · rw [if_pos he, (hmem_spec e he).2.1, (hmem_spec e he).1,
            List.singleton_append]
          exact seamCond_cons_iff (dictGet ac.edict e) sg _ (e ∈ ac.seams)
        · rw [if_neg he, (hnotmem_spec e he).2.1, (hnotmem_spec e he).1,
            List.nil_append]
      · intro e
        rw [hns e]
        simp only [sgVisitsAux, hof]
        by_cases he : e ∈ faceEdges f
        · rw [if_pos he, (hmem_spec e he).2.2, (hmem_spec e he).1,
            List.singleton_append]
          exact seamCond_cons_iff (dictGet ac.edict e) sg _ (e ∈ ac.notSmooth)
        · rw [if_neg he, (hnotmem_spec e he).2.2, (hnotmem_spec e he).1,
            List.nil_append]
      · intro j
        rw [hfs j, hfs1]
        constructor
        · rintro (hj | ⟨hj1, hj2, hj3⟩)
          · rcases List.mem_cons.mp hj with rfl | hj'
            · exact Or.inr ⟨le_refl _, by simp only [List.length_cons]; omega, ⟨f, hof⟩⟩
            · exact Or.inl hj'
          · refine Or.inr ⟨by omega, ?_, hj3⟩
            simp only [List.length_cons]
            omega
        · rintro (hj | ⟨hj1, hj2, hj3⟩)
          · exact Or.inl (List.mem_cons_of_mem _ hj)
          · by_cases hjf : j = fi
            · subst hjf
              exact Or.inl (List.mem_cons_self ..)
            · refine Or.inr ⟨by omega, ?_, hj3⟩
              simp only [List.length_cons] at hj2
              omega

/-- C4: in the smoothing-group chunk decode, every face with a non-null
slot is marked smooth and each of its edges records the face's group id
(first conjunct, and the faceSmooth/edict characterizations); an edge ends
up marked as a seam and as not smooth exactly when some face visited it
while it carried a recorded id from a different, earlier face that differs
from the visiting face's id — i.e. exactly when the edge's visit sequence
has two consecutive differing ids (`seamCondB`).  In particular two
adjacent faces with ids 1 and 2 yield their shared edge seamed and two
adjacent faces both with id 1 do not (see the witness). -/
theorem C4_smoothing_seams (faces : List (Option Face)) (groups : List ℕ)
    (hnd : ∀ of ∈ faces, faceEdgesND of = true)
    (hlen : groups.length ≤ faces.length) :
    (∀ (ac : SGAcc) (sg fi : ℕ) (f : Face), (faceEdges f).Nodup →
      (sgFace ac fi (some f) sg).faceSmooth = fi :: ac.faceSmooth ∧
      ∀ e ∈ faceEdges f, dictGet (sgFace ac fi (some f) sg).edict e = some sg) ∧
    ∃ acF, sgRunAux faces groups 0 ⟨[], [], [], []⟩ = Except.ok acF ∧
      (∀ e, (e ∈ acF.seams ↔ seamCondB none (sgVisitsAux faces groups 0 e) = true)) ∧
      (∀ e, (e ∈ acF.notSmooth ↔ seamCondB none (sgVisitsAux faces groups 0 e) = true)) ∧
      (∀ j, (j ∈ acF.faceSmooth ↔
        j < groups.length ∧ ∃ f, faces.get? j = some (some f))) ∧
      (∀ e, dictGet acF.edict e = lastRecorded none (sgVisitsAux faces groups 0 e)) := by
  constructor
  · intro ac sg fi f hndf
    obtain ⟨h1, h2, _⟩ := sgFace_some_spec ac fi f sg hndf
    exact ⟨h1, fun e he => (h2 e he).1⟩
  · obtain ⟨acF, hrun, hed, hseam, hns, hfs⟩ :=
      sgRun_char faces hnd groups 0 ⟨[], [], [], []⟩ (by omega)
    refine ⟨acF, hrun, ?_, ?_, ?_, ?_⟩
    · intro e
      simpa [dictGet] using hseam e
    · intro e
      simpa [dictGet] using hns e
    · intro j
      simpa using hfs j
    · intro e
      simpa [dictGet] using hed e

/-- Concrete check of C4: two faces sharing edge `(1,2)` with group ids 1
and 2 mark it as a seam and as not smooth and both faces smooth; the same
two faces both with id 1 do not mark the edge as a seam. -/
theorem C4_smoothing_seams_witness :
    (∃ acF, sgRunAux [some ((0, 1, 2) : Face), some (1, 2, 3)] [1, 2] 0
        ⟨[], [], [], []⟩ = Except.ok acF ∧
      epair 1 2 ∈ acF.seams ∧ epair 1 2 ∈ acF.notSmooth ∧
      0 ∈ acF.faceSmooth ∧ 1 ∈ acF.faceSmooth) ∧
    (∃ acF, sgRunAux [some ((0, 1, 2) : Face), some (1, 2, 3)] [1, 1] 0
        ⟨[], [], [], []⟩ = Except.ok acF ∧ epair 1 2 ∉ acF.seams) := by
  constructor
  · obtain ⟨_, acF, hrun, hseam, hns, hfs, _⟩ :=
      C4_smoothing_seams [some ((0, 1, 2) : Face), some (1, 2, 3)] [1, 2]
        (by decide) (by decide)
    exact ⟨acF, hrun, (hseam (epair 1 2)).mpr (by decide),
      (hns (epair 1 2)).mpr (by decide),
      (hfs 0).mpr ⟨by decide, (0, 1, 2), rfl⟩,
      (hfs 1).mpr ⟨by decide, (1, 2, 3), rfl⟩⟩
  · obtain ⟨_, acF, hrun, hseam, _, _, _⟩ :=
      C4_smoothing_seams [some ((0, 1, 2) : Face), some (1, 2, 3)] [1, 1]
        (by decide) (by decide)
    refine ⟨acF, hrun, fun hmem => ?_⟩
    exact absurd ((hseam (epair 1 2)).mp hmem) (by decide)

/-! ### Null-face tolerance lemmas -/

theorem except_bind_ok {ε α β : Type} (a : α) (f : α → Except ε β) :
    (Except.ok a >>= f : Except ε β) = f a := rfl

theorem except_bind_error {ε α β : Type} (e : ε) (f : α → Except ε β) :
    ((Except.error e : Except ε α) >>= f : Except ε β) = Except.error e := rfl

theorem faceNew_ok (nverts : ℕ) (acc : List (Option Face)) (a b c : ℕ)
    (h1 : a < nverts) (h2 : b < nverts) (h3 : c < nverts) :
    faceNew nverts acc a b c =
      Except.ok (if a = b ∨ b = c ∨ a = c ∨ dupFace acc (a, b, c) then none
        else some (a, b, c)) := by
  unfold faceNew
  rw [if_pos ⟨h1, h2, h3⟩]
  by_cases hD : a = b ∨ b = c ∨ a = c ∨ dupFace acc (a, b, c) = true <;> simp [hD]

theorem facesLoop_spec (nverts : ℕ) :
    ∀ (n : ℕ) (st : PRState) (acc fsr : List (Option Face)) (st' : PRState),
      facesLoop nverts n st acc = Except.ok (fsr, st') →
        fsr.length = acc.length + n ∧ ∃ t, fsr = acc ++ t := by
  intro n
  induction n with
  | zero =>
    intro st acc fsr st' h
    simp only [facesLoop, Except.ok.injEq, Prod.mk.injEq] at h
    obtain ⟨h1, _⟩ := h
    subst h1
    exact ⟨by omega, [], by simp⟩
  | succ n ih =>
    intro st acc fsr st' h
    simp only [facesLoop] at h
    cases hg : getU32x6 st with
    | none =>
      rw [hg] at h
      simp [req, except_bind_error] at h
    | some p =>
      obtain ⟨fr, st2⟩ := p
      rw [hg] at h
      simp only [req, except_bind_ok] at h
      cases hf : faceNew nverts acc fr.1 fr.2.2.1 fr.2.2.2.2.1 with
      | error e =>
        rw [hf] at h
        simp [except_bind_error] at h
      | ok of =>
        rw [hf] at h
        simp only [except_bind_ok] at h
        obtain ⟨hl, t, ht⟩ := ih st2 (acc ++ [of]) fsr st' h
        refine ⟨?_, of :: t, ?_⟩
        · simp only [List.length_append, List.length_cons, List.length_nil] at hl
          omega
        · simpa [List.append_assoc] using ht

theorem sfaceAssign_spec (faces : List (Option Face)) (midx : ℕ) :
    ∀ (fis : List ℕ) (acc : List (ℕ × ℕ)),
      (∀ fi ∈ fis, fi < faces.length) →
        ∃ res, sfaceAssign faces midx fis acc = Except.ok res ∧
          ∀ p ∈ res, p ∉ acc → ∃ f, faces.get? p.1 = some (some f) ∧ p.2 = midx := by
  intro fis
  induction fis with
  | nil =>
    intro acc _
    exact ⟨acc, rfl, fun p hp hnp => absurd hp hnp⟩
  | cons fi rest ih =>
    intro acc hb
    have hfi : fi < faces.length := hb fi (List.mem_cons_self ..)
    obtain ⟨of, hof⟩ : ∃ of, faces.get? fi = some of := by
      rw [List.get?_eq_get hfi]
      exact ⟨_, rfl⟩
    cases of with
    | none =>
      obtain ⟨res, hres, hprop⟩ := ih acc (fun x hx => hb x (List.mem_cons_of_mem _ hx))
      refine ⟨res, ?_, hprop⟩
      simp only [sfaceAssign, hof]
      exact hres
    | some f =>
      obtain ⟨res, hres, hprop⟩ :=
        ih (acc ++ [(fi, midx)]) (fun x hx => hb x (List.mem_cons_of_mem _ hx))
      refine ⟨res, ?_, ?_⟩
      · simp only [sfaceAssign, hof]
        exact hres
      · intro p hp hnp
        by_cases hpm : p ∈ acc ++ [(fi, midx)]
        · rcases List.mem_append.mp hpm with h | h
          · exact absurd h hnp
          · have hpfi : p = (fi, midx) := by simpa using h
            subst hpfi
            exact ⟨f, hof, rfl⟩
        · exact hprop p hp hpm

theorem uvDiscon_spec (faces : List (Option Face)) :
    ∀ (entries : List ((ℕ × ℕ) × ℕ × ℕ)) (acc : List ((ℕ × ℕ) × (ℕ × ℕ))),
      (∀ x ∈ entries, x.2.2 < faces.length) →
        ∃ res, uvDisconLoop faces entries acc = Except.ok res ∧
          ∀ p ∈ res, p ∉ acc → ∃ f, faces.get? p.1.1 = some (some f) := by
  intro entries
  induction entries with
  | nil =>
    intro acc _
    exact ⟨acc, rfl, fun p hp hnp => absurd hp hnp⟩
  | cons x rest ih =>
    intro acc hb
    obtain ⟨uv, vi, fi⟩ := x
    have hfi : fi < faces.length := hb (uv, vi, fi) (List.mem_cons_self ..)
    obtain ⟨of, hof⟩ : ∃ of, faces.get? fi = some of := by
      rw [List.get?_eq_get hfi]
      exact ⟨_, rfl⟩
    cases of with
    | none =>
      obtain ⟨res, hres, hprop⟩ := ih acc (fun y hy => hb y (List.mem_cons_of_mem _ hy))
      refine ⟨res, ?_, hprop⟩
      simp only [uvDisconLoop, hof]
      exact hres
    | some f =>
      by_cases hv : faceHasVert f vi
      · obtain ⟨res, hres, hprop⟩ :=
          ih (acc ++ [((fi, vi), uv)]) (fun y hy => hb y (List.mem_cons_of_mem _ hy))
        refine ⟨res, ?_, ?_⟩
        · simp only [uvDisconLoop, hof, hv, if_true]
          exact hres
        · intro p hp hnp
          by_cases hpm : p ∈ acc ++ [((fi, vi), uv)]
          · rcases List.mem_append.mp hpm with h | h
            · exact absurd h hnp
            · have hpe : p = ((fi, vi), uv) := by simpa using h
              subst hpe
              exact ⟨f, hof⟩
          · exact hprop p hp hpm
      · obtain ⟨res, hres, hprop⟩ := ih acc (fun y hy => hb y (List.mem_cons_of_mem _ hy))
        refine ⟨res, ?_, hprop⟩
        simp only [uvDisconLoop, hof]
        rw [if_neg hv]
        exact hres

/-- C7: during mesh face decoding, a face whose construction fails —
degenerate (repeated vertex index) or duplicate (same vertex set as an
existing face) — never aborts the decode: with in-range vertex indices
`faceNew` always returns `ok`, storing a null placeholder exactly for
those faces, every face record appends exactly one slot so the list stays
positionally aligned, and every later chunk that references faces by index
(smoothing groups, surface-material assignment, disconnected UV maps)
skips null slots silently without raising: the loops return `ok`, every
material/UV assignment they make targets a non-null slot, and a null slot
is never marked smooth. -/
theorem C7_null_face_tolerance (nverts : ℕ) :
    (∀ (acc : List (Option Face)) (a b c : ℕ),
      a < nverts → b < nverts → c < nverts →
        faceNew nverts acc a b c =
          Except.ok (if a = b ∨ b = c ∨ a = c ∨ dupFace acc (a, b, c) then none
            else some (a, b, c))) ∧
    (∀ (n : ℕ) (st : PRState) (acc fsr : List (Option Face)) (st' : PRState),
      facesLoop nverts n st acc = Except.ok (fsr, st') →
        fsr.length = acc.length + n ∧ ∃ t, fsr = acc ++ t) ∧
    (∀ (faces : List (Option Face)) (midx : ℕ) (fis : List ℕ) (acc : List (ℕ × ℕ)),
      (∀ fi ∈ fis, fi < faces.length) →
        ∃ res, sfaceAssign faces midx fis acc = Except.ok res ∧
          ∀ p ∈ res, p ∉ acc → ∃ f, faces.get? p.1 = some (some f) ∧ p.2 = midx) ∧
    (∀ (faces : List (Option Face)) (entries : List ((ℕ × ℕ) × ℕ × ℕ))
        (acc : List ((ℕ × ℕ) × (ℕ × ℕ))),
      (∀ x ∈ entries, x.2.2 < faces.length) →
        ∃ res, uvDisconLoop faces entries acc = Except.ok res ∧
          ∀ p ∈ res, p ∉ acc → ∃ f, faces.get? p.1.1 = some (some f)) ∧
    (∀ (faces : List (Option Face)) (groups : List ℕ),
      (∀ of ∈ faces, faceEdgesND of = true) → groups.length ≤ faces.length →
        ∃ acF, sgRunAux faces groups 0 ⟨[], [], [], []⟩ = Except.ok acF ∧
          ∀ j, faces.get? j = some none → j ∉ acF.faceSmooth) := by
  refine ⟨faceNew_ok nverts, facesLoop_spec nverts, sfaceAssign_spec, uvDiscon_spec, ?_⟩
  intro faces groups hnd hlen
  obtain ⟨acF, hrun, _, _, _, hfs⟩ :=
    sgRun_char faces hnd groups 0 ⟨[], [], [], []⟩ (by omega)
  refine ⟨acF, hrun, ?_⟩
  intro j hj hmem
  rcases (hfs j).mp hmem with h | ⟨_, _, f, hf⟩
  · simp at h
  · rw [hj] at hf
    exact absurd (Option.some_injective _ hf) (by simp)

/-- Concrete check of C7: a degenerate face record and a duplicate face
record both yield `ok none`; the faces loop keeps one slot per record; the
surface-assignment and disconnected-UV loops skip a null slot without
error; a null slot is not marked smooth. -/
theorem C7_null_face_tolerance_witness :
    faceNew 3 [] 0 1 1 = Except.ok none ∧
    faceNew 3 [some (2, 1, 0)] 0 1 2 = Except.ok none ∧
    faceNew 3 [] 0 1 2 = Except.ok (some (0, 1, 2)) ∧
    sfaceAssign [some (0, 1, 2), none] 5 [0, 1] [] = Except.ok [(0, 5)] ∧
    uvDisconLoop [none, some (0, 1, 2)] [((7, 8), 0, 0), ((7, 8), 1, 1)] [] =
      Except.ok [((1, 1), (7, 8))] ∧
    (∃ acF, sgRunAux [none, some (0, 1, 2)] [4, 4] 0 ⟨[], [], [], []⟩ =
      Except.ok acF ∧ 0 ∉ acF.faceSmooth) := by
  have h := C7_null_face_tolerance 3
  refine ⟨?_, ?_, ?_, by rfl, by rfl, ?_⟩
  · rw [h.1 [] 0 1 1 (by decide) (by decide) (by decide)]
    rfl
  · rw [h.1 [some (2, 1, 0)] 0 1 2 (by decide) (by decide) (by decide)]
    rfl
  · rw [h.1 [] 0 1 2 (by decide) (by decide) (by decide)]
    rfl
  · obtain ⟨acF, hrun, hprop⟩ :=
      h.2.2.2.2 [none, some (0, 1, 2)] [4, 4] (by decide) (by decide)
    exact ⟨acF, hrun, hprop 0 rfl⟩

/-! ### Parse/serialize round-trip lemmas -/

theorem option_bind_some {α β : Type} (a : α) (f : α → Option β) :
    (some a >>= f) = f a := rfl

theorem getU8_eq (data : List ℕ) (off : ℕ) (b : ℕ) (rest : List ℕ)
    (h : data.drop off = b :: rest) :
    getU8 ⟨data, off⟩ = some (b, ⟨data, off + 1⟩) ∧ data.drop (off + 1) = rest := by
  constructor
  · have hb : data[off]? = some b := by
      have := List.getElem?_drop data off 0
      rw [h] at this
      simpa using this.symm
    simp [getU8, hb]
  · have : data.drop (off + 1) = (data.drop off).drop 1 := by
      rw [List.drop_drop]
    rw [this, h]
    rfl

theorem getU32_eq (data : List ℕ) (off : ℕ) (n : ℕ) (rest : List ℕ)
    (hn : n < 4294967296)
    (h : data.drop off = putU32 n ++ rest) :
    getU32 ⟨data, off⟩ = some (n, ⟨data, off + 4⟩) ∧
      data.drop (off + 4) = rest := by
  have h0 : data.drop off = n % 256 :: (n / 256 % 256 :: (n / 65536 % 256 ::
      (n / 16777216 % 256 :: rest))) := by
    simpa [putU32] using h
  obtain ⟨g0, d0⟩ := getU8_eq data off _ _ h0
  obtain ⟨g1, d1⟩ := getU8_eq data (off + 1) _ _ d0
  obtain ⟨g2, d2⟩ := getU8_eq data (off + 1 + 1) _ _ d1
  obtain ⟨g3, d3⟩ := getU8_eq data (off + 1 + 1 + 1) _ _ d2
  constructor
  · simp only [getU32, g0, g1, g2, g3, option_bind_some]
    have harith : n % 256 + 256 * (n / 256 % 256) + 65536 * (n / 65536 % 256) +
        16777216 * (n / 16777216 % 256) = n := by omega
    have hoff : off + 1 + 1 + 1 + 1 = off + 4 := by omega
    rw [harith, hoff]
  · have hoff : off + 4 = off + 1 + 1 + 1 + 1 := by omega
    rw [hoff]
    exact d3

theorem getU32s_eq :
    ∀ (l : List ℕ) (data : List ℕ) (off : ℕ) (rest : List ℕ),
      (∀ x ∈ l, x < 4294967296) →
      data.drop off = putU32s l ++ rest →
      getU32s l.length ⟨data, off⟩ = some (l, ⟨data, off + 4 * l.length⟩) ∧
        data.drop (off + 4 * l.length) = rest := by
  intro l
  induction l with
  | nil =>
    intro data off rest _ h
    simp only [putU32s, List.map_nil, List.flatten_nil, List.nil_append] at h
    exact ⟨by simp [getU32s], by simpa using h⟩
  | cons x xs ih =>
    intro data off rest hb h
    have hx : x < 4294967296 := hb x (List.mem_cons_self ..)
    have h' : data.drop off = putU32 x ++ (putU32s xs ++ rest) := by
      simpa [putU32s, List.append_assoc] using h
    obtain ⟨g0, d0⟩ := getU32_eq data off x _ hx h'
    obtain ⟨gs, ds⟩ := ih data (off + 4) rest
      (fun y hy => hb y (List.mem_cons_of_mem _ hy)) d0
    constructor
    · simp only [List.length_cons, getU32s, g0, gs, option_bind_some]
      have : off + 4 + 4 * xs.length = off + 4 * (xs.length + 1) := by omega
      rw [this]
    · have : off + 4 * (x :: xs).length = off + 4 + 4 * xs.length := by
        simp only [List.length_cons]
        omega
      rw [this]
      exact ds

theorem getF32s_eq_getU32s : ∀ (n : ℕ) (st : PRState), getF32s n st = getU32s n st := by
  intro n
  induction n with
  | zero => intro st; rfl
  | succ n ih =>
    intro st
    simp only [getF32s, getU32s, getF32]
    cases getU32 st with
    | none => rfl
    | some p =>
      obtain ⟨x, st2⟩ := p
      simp only [option_bind_some, ih]

theorem takeUntilZero_eq :
    ∀ (nm rest : List ℕ), (0 : ℕ) ∉ nm →
      takeUntilZero (nm ++ 0 :: rest) = some (nm, nm.length + 1) := by
  intro nm
  induction nm with
  | nil =>
    intro rest _
    simp [takeUntilZero]
  | cons b bs ih =>
    intro rest h
    have hb : ¬ b = 0 := fun hh => h (by simp [hh])
    have hbs : (0 : ℕ) ∉ bs := fun hh => h (by simp [hh])
    simp only [List.cons_append, takeUntilZero, hb, if_false, List.append_eq,
      ih rest hbs, List.length_cons]
    rfl

theorem gets_eq (data : List ℕ) (off : ℕ) (nm rest : List ℕ)
    (h0 : (0 : ℕ) ∉ nm) (h : data.drop off = nm ++ 0 :: rest) :
    gets ⟨data, off⟩ = some (nm, ⟨data, off + (nm.length + 1)⟩) ∧
      data.drop (off + (nm.length + 1)) = rest := by
  constructor
  · show (takeUntilZero (data.drop off)).map _ = _
    rw [h, takeUntilZero_eq nm rest h0]
    rfl
  · have hd : data.drop (off + (nm.length + 1)) = (data.drop off).drop (nm.length + 1) := by
      rw [List.drop_drop]
    rw [hd, h]
    have hsplit : (nm ++ 0 :: rest).drop (nm.length + 1) =
        ((nm ++ 0 :: rest).drop nm.length).drop 1 := by
      rw [List.drop_drop]
    rw [hsplit, List.drop_left]
    rfl

theorem weightsConn_ok (nverts vgi : ℕ) :
    ∀ (entries : List (ℕ × ℕ)) (w : List ((ℕ × ℕ) × ℕ)),
      (∀ x ∈ entries, x.2 < nverts) →
      weightsConnLoop nverts vgi entries w =
        Except.ok (entries.foldl (fun acc p => dictPut acc (p.2, vgi) p.1) w) := by
  intro entries
  induction entries with
  | nil => intro w _; rfl
  | cons x rest ih =>
    intro w hb
    obtain ⟨vw, vi⟩ := x
    have hvi : vi < nverts := hb (vw, vi) (List.mem_cons_self ..)
    simp only [weightsConnLoop, hvi, if_pos, List.foldl_cons]
    exact ih (dictPut w (vi, vgi) vw) (fun y hy => hb y (List.mem_cons_of_mem _ hy))

/-- C9: a vertex-weight vmap (type 1) whose disconnected flag is set reads
the weight values, vertex indices and face-corner indices from the buffer
(the cursor advances past all three arrays) but assigns no deform weight:
the resulting state differs from the input state only in the vertex-group
counter, so `weights` is unchanged, and no error is raised.  A connected
weight map with the same payload instead writes every `(weight, vertex)`
pair into the deform dict (second conjunct: only connected maps apply
their values). -/
theorem C9_disconnected_weights_unapplied :
    (∀ (ms : MeshState) (data : List ℕ) (off : ℕ) (nm : List ℕ) (dim d t : ℕ)
        (wgs vtx fcs rest : List ℕ),
      (0 : ℕ) ∉ nm → d ≠ 0 → t % 4 = 1 →
      wgs.length < 4294967296 →
      (∀ x ∈ wgs, x < 4294967296) → (∀ x ∈ vtx, x < 4294967296) →
      (∀ x ∈ fcs, x < 4294967296) →
      vtx.length = wgs.length → fcs.length = wgs.length →
      data.drop off = nm ++ 0 :: dim :: d :: t ::
        (putU32 wgs.length ++ (putU32s wgs ++ (putU32s vtx ++ (putU32s fcs ++ rest)))) →
      vmapOne ms ⟨data, off⟩ = Except.ok
        ({ ms with vgroups := ms.vgroups + 1 },
          ⟨data, off + (nm.length + 1) + 3 + 4 + 4 * (3 * wgs.length)⟩)) ∧
    (∀ (ms : MeshState) (data : List ℕ) (off : ℕ) (nm : List ℕ) (dim t : ℕ)
        (wgs vtx rest : List ℕ),
      (0 : ℕ) ∉ nm → t % 4 = 1 →
      wgs.length < 4294967296 →
      (∀ x ∈ wgs, x < 4294967296) → (∀ x ∈ vtx, x < 4294967296) →
      vtx.length = wgs.length →
      (∀ vi ∈ vtx, vi < ms.verts.length) →
      data.drop off = nm ++ 0 :: dim :: 0 :: t ::
        (putU32 wgs.length ++ (putU32s wgs ++ (putU32s vtx ++ rest))) →
      vmapOne ms ⟨data, off⟩ = Except.ok
        ({ ms with vgroups := ms.vgroups + 1, weights := (wgs.zip vtx).foldl (fun acc p => dictPut acc (p.2, ms.vgroups) p.1) ms.weights },
          ⟨data, off + (nm.length + 1) + 3 + 4 + 4 * (2 * wgs.length)⟩)) := by
  constructor
  · intro ms data off nm dim d t wgs vtx fcs rest h0 hd ht hszb hw hv hf hlv hlf hdrop
    obtain ⟨g1, d1⟩ := gets_eq data off nm _ h0 hdrop
    obtain ⟨g2, d2⟩ := getU8_eq data (off + (nm.length + 1)) dim _ d1
    obtain ⟨g3, d3⟩ := getU8_eq data (off + (nm.length + 1) + 1) d _ d2
    obtain ⟨g4, d4⟩ := getU8_eq data (off + (nm.length + 1) + 1 + 1) t _ d3
    obtain ⟨g5, d5⟩ := getU32_eq data (off + (nm.length + 1) + 1 + 1 + 1) wgs.length _ hszb d4
    obtain ⟨g6, d6⟩ := getU32s_eq wgs data (off + (nm.length + 1) + 1 + 1 + 1 + 4) _ hw d5
    obtain ⟨g7, d7⟩ := getU32s_eq vtx data
      (off + (nm.length + 1) + 1 + 1 + 1 + 4 + 4 * wgs.length) _ hv d6
    rw [hlv] at g7 d7
    obtain ⟨g8, _⟩ := getU32s_eq fcs data
      (off + (nm.length + 1) + 1 + 1 + 1 + 4 + 4 * wgs.length + 4 * wgs.length) _ hf d7
    rw [hlf] at g8
    have hne0 : ¬ (1 : ℕ) = 0 := by decide
    simp only [vmapOne, g1, g2, g3, g4, g5, req, except_bind_ok, ht, hne0,
      if_false, if_true, hd, getF32s_eq_getU32s, g6, g7, g8]
    rw [if_pos hd]
    simp only [Except.ok.injEq, Prod.mk.injEq, PRState.mk.injEq]
    refine ⟨trivial, trivial, by omega⟩
  · intro ms data off nm dim t wgs vtx rest h0 ht hszb hw hv hlv hvb hdrop
    obtain ⟨g1, d1⟩ := gets_eq data off nm _ h0 hdrop
    obtain ⟨g2, d2⟩ := getU8_eq data (off + (nm.length + 1)) dim _ d1
    obtain ⟨g3, d3⟩ := getU8_eq data (off + (nm.length + 1) + 1) 0 _ d2
    obtain ⟨g4, d4⟩ := getU8_eq data (off + (nm.length + 1) + 1 + 1) t _ d3
    obtain ⟨g5, d5⟩ := getU32_eq data (off + (nm.length + 1) + 1 + 1 + 1) wgs.length _ hszb d4
    obtain ⟨g6, d6⟩ := getU32s_eq wgs data (off + (nm.length + 1) + 1 + 1 + 1 + 4) _ hw d5
    obtain ⟨g7, _⟩ := getU32s_eq vtx data
      (off + (nm.length + 1) + 1 + 1 + 1 + 4 + 4 * wgs.length) _ hv d6
    rw [hlv] at g7
    have hzip : ∀ x ∈ wgs.zip vtx, x.2 < ms.verts.length := by
      intro x hx
      exact hvb x.2 (List.of_mem_zip hx).2
    have hconn := weightsConn_ok ms.verts.length ms.vgroups (wgs.zip vtx) ms.weights hzip
    have hne0 : ¬ (1 : ℕ) = 0 := by decide
    simp only [vmapOne, g1, g2, g3, g4, g5, req, except_bind_ok, ht, hne0,
      if_false, if_true, getF32s_eq_getU32s, g6, g7, hconn]
    rw [if_neg (by decide : ¬ ((0 : ℕ) ≠ 0))]
    simp only [hconn, except_bind_ok, Except.ok.injEq, Prod.mk.injEq, PRState.mk.injEq]
    refine ⟨trivial, trivial, by omega⟩

/-- Concrete check of C9: a one-entry disconnected weight map (name `A`,
weight pattern 7 on vertex 1, corner 0) is fully consumed, creates one
vertex group, and leaves the weight dict empty. -/
theorem C9_disconnected_weights_unapplied_witness :
    vmapOne meshInit
        ⟨[65, 0, 1, 1, 1] ++ putU32 1 ++ putU32 7 ++ putU32 1 ++ putU32 0, 0⟩ =
      Except.ok ({ meshInit with vgroups := 1 },
        ⟨[65, 0, 1, 1, 1] ++ putU32 1 ++ putU32 7 ++ putU32 1 ++ putU32 0, 21⟩) := by
  have h := C9_disconnected_weights_unapplied.1 meshInit
    ([65, 0, 1, 1, 1] ++ putU32 1 ++ putU32 7 ++ putU32 1 ++ putU32 0) 0
    [65] 1 1 1 [7] [1] [0] []
    (by decide) (by decide) (by decide) (by decide) (by decide) (by decide)
    (by decide) (by decide) (by decide) (by decide)
  simpa using h

/-! ### Bone bind-transform lemmas -/

theorem lastNamed_succ (bones : List BoneRec) (nm : List ℕ) (k : ℕ) :
    lastNamed bones nm (k + 1) =
      if (bones.get? k).map BoneRec.name = some nm then some k
      else lastNamed bones nm k := rfl

theorem boneMats_succ {M : Type} [Monoid M] (Tr Eu : (ℕ × ℕ × ℕ) → M)
    (bones : List BoneRec) (k : ℕ) (bk : BoneRec) (h : bones.get? k = some bk) :
    boneMats Tr Eu bones (k + 1) = boneMatStep Tr Eu (boneMats Tr Eu bones k) bk := by
  have h' : bones[k]? = some bk := by
    rw [← List.get?_eq_getElem?]
    exact h
  unfold boneMats
  rw [List.take_succ, h']
  rw [List.foldl_append]
  rfl

theorem boneMats_succ_none {M : Type} [Monoid M] (Tr Eu : (ℕ × ℕ × ℕ) → M)
    (bones : List BoneRec) (k : ℕ) (h : bones.get? k = none) :
    boneMats Tr Eu bones (k + 1) = boneMats Tr Eu bones k := by
  have h' : bones[k]? = none := by
    rw [← List.get?_eq_getElem?]
    exact h
  unfold boneMats
  rw [List.take_succ, h']
  simp

theorem codeMat_eq {M : Type} [Monoid M] (Tr Eu : (ℕ × ℕ × ℕ) → M)
    (bones : List BoneRec) (k : ℕ) (bk : BoneRec) (h : bones.get? k = some bk) :
    codeMat Tr Eu bones k =
      ((dictGet (boneMats Tr Eu bones k) bk.parent).getD 1) * Tr bk.offset * Eu bk.rotate := by
  unfold codeMat
  rw [h]

theorem boneMats_inv {M : Type} [Monoid M] (Tr Eu : (ℕ × ℕ × ℕ) → M)
    (bones : List BoneRec) :
    ∀ (k : ℕ) (nm : List ℕ),
      dictGet (boneMats Tr Eu bones k) nm =
        (lastNamed bones nm k).map (codeMat Tr Eu bones) := by
  intro k
  induction k with
  | zero => intro nm; rfl
  | succ k ih =>
    intro nm
    cases hok : bones.get? k with
    | none =>
      rw [boneMats_succ_none Tr Eu bones k hok, lastNamed_succ, hok]
      rw [if_neg (by simp)]
      exact ih nm
    | some bk =>
      rw [boneMats_succ Tr Eu bones k bk hok]
      unfold boneMatStep
      by_cases hnm : nm = bk.name
      · subst hnm
        rw [dictGet_dictPut_self, lastNamed_succ, hok]
        rw [if_pos (by simp)]
        simp only [Option.map_some']
        rw [codeMat_eq Tr Eu bones k bk hok]
      · rw [dictGet_dictPut_ne _ _ _ _ hnm, lastNamed_succ, hok]
        have hcond : ¬ (some bk).map BoneRec.name = some nm := by
          simp only [Option.map_some', Option.some.injEq]
          exact fun hh => hnm hh.symm
        rw [if_neg hcond]
        exact ih nm

theorem lastNamed_none_of_absent (bones : List BoneRec) (nm : List ℕ)
    (h : ∀ b ∈ bones, b.name ≠ nm) :
    ∀ i, lastNamed bones nm i = none := by
  intro i
  induction i with
  | zero => rfl
  | succ j ih =>
    rw [lastNamed_succ]
    cases hj : bones.get? j with
    | none =>
      rw [if_neg (by simp)]
      exact ih
    | some b =>
      have hcond : ¬ (some b).map BoneRec.name = some nm := by
        simp only [Option.map_some', Option.some.injEq]
        exact h b (List.get?_mem hj)
      rw [if_neg hcond]
      exact ih

/-- C8: for every bone decoded in file order, the bind transform the code
computes equals `parent_bind_transform * Translation(offset) *
EulerZXY(rotation)` in that order, where `parent_bind_transform` is the
transform previously computed for the most recent earlier bone named as
parent; the computed transform is stored under the bone's name; and a
root bone (empty parent name, with no bone actually named by the empty
string) gets the identity as its incoming transform.  The matrix algebra
of `mathutils` is abstracted to an arbitrary monoid. -/
theorem C8_bone_bind_transform {M : Type} [Monoid M] (Tr Eu : (ℕ × ℕ × ℕ) → M)
    (bones : List BoneRec) :
    importBones Tr Eu bones = boneMats Tr Eu bones bones.length ∧
    (∀ (i : ℕ) (b : BoneRec), bones.get? i = some b →
      codeMat Tr Eu bones i =
        (match lastNamed bones b.parent i with
          | none => 1
          | some j => codeMat Tr Eu bones j) * Tr b.offset * Eu b.rotate ∧
      dictGet (boneMats Tr Eu bones (i + 1)) b.name = some (codeMat Tr Eu bones i) ∧
      (b.parent = [] → (∀ b' ∈ bones, b'.name ≠ ([] : List ℕ)) →
        codeMat Tr Eu bones i = 1 * Tr b.offset * Eu b.rotate)) := by
  constructor
  · unfold importBones boneMats
    rw [List.take_length]
  · intro i b hib
    refine ⟨?_, ?_, ?_⟩
    · rw [codeMat_eq Tr Eu bones i b hib, boneMats_inv Tr Eu bones i b.parent]
      cases lastNamed bones b.parent i <;> rfl
    · rw [boneMats_succ Tr Eu bones i b hib]
      unfold boneMatStep
      rw [dictGet_dictPut_self, codeMat_eq Tr Eu bones i b hib]
    · intro hroot habs
      rw [codeMat_eq Tr Eu bones i b hib, boneMats_inv Tr Eu bones i b.parent,
        hroot, lastNamed_none_of_absent bones [] habs i]
      rfl

/-- Concrete check of C8 over the multiplicative monoid `ℕ` with constant
translation factor 2 and Euler factor 3: the root bone gets `1 * 2 * 3 =
6`, its child `6 * 2 * 3 = 36`, and the child's transform is stored under
its name in the final `bonemat`. -/
theorem C8_bone_bind_transform_witness :
    codeMat (fun _ => (2 : ℕ)) (fun _ => 3)
        [⟨[1], [], (0, 0, 0), (0, 0, 0)⟩, ⟨[2], [1], (0, 0, 0), (0, 0, 0)⟩] 0 = 6 ∧
    codeMat (fun _ => (2 : ℕ)) (fun _ => 3)
        [⟨[1], [], (0, 0, 0), (0, 0, 0)⟩, ⟨[2], [1], (0, 0, 0), (0, 0, 0)⟩] 1 = 36 ∧
    dictGet (importBones (fun _ => (2 : ℕ)) (fun _ => 3)
        [⟨[1], [], (0, 0, 0), (0, 0, 0)⟩, ⟨[2], [1], (0, 0, 0), (0, 0, 0)⟩]) [2] =
      some 36 := by
  have h := C8_bone_bind_transform (fun _ => (2 : ℕ)) (fun _ => 3)
    [⟨[1], [], (0, 0, 0), (0, 0, 0)⟩, ⟨[2], [1], (0, 0, 0), (0, 0, 0)⟩]
  obtain ⟨hroot1, _, hroot0⟩ := h.2 0 ⟨[1], [], (0, 0, 0), (0, 0, 0)⟩ rfl
  obtain ⟨hrec, hstore, _⟩ := h.2 1 ⟨[2], [1], (0, 0, 0), (0, 0, 0)⟩ rfl
  have h0 : codeMat (fun _ => (2 : ℕ)) (fun _ => 3)
      [⟨[1], [], (0, 0, 0), (0, 0, 0)⟩, ⟨[2], [1], (0, 0, 0), (0, 0, 0)⟩] 0 = 6 := by
    rw [hroot0 rfl (by decide)]
    decide
  have hln : lastNamed
      [⟨[1], [], (0, 0, 0), (0, 0, 0)⟩, (⟨[2], [1], (0, 0, 0), (0, 0, 0)⟩ : BoneRec)]
      [1] 1 = some 0 := by decide
  refine ⟨h0, ?_, ?_⟩
  · rw [hrec]
    simp only [hln]
    rw [h0]
    decide
  · rw [h.1]
    show dictGet (boneMats (fun _ => (2 : ℕ)) (fun _ => 3)
        [⟨[1], [], (0, 0, 0), (0, 0, 0)⟩, ⟨[2], [1], (0, 0, 0), (0, 0, 0)⟩] (1 + 1)) [2] =
      some 36
    rw [hstore, hrec]
    simp only [hln]
    rw [h0]
    decide

/-! ### Image-cache lemmas -/

theorem ctxImage_cached (cx : ImageCtx) (p : List Char) (r : ℕ)
    (h : dictGet cx.images (normPath p) = some r) :
    ctxImage cx p = (r, cx) := by
  unfold ctxImage
  rw [h]

theorem ctxImage_post (cx : ImageCtx) (p : List Char) :
    dictGet ((ctxImage cx p).2).images (normPath p) = some (ctxImage cx p).1 := by
  unfold ctxImage
  cases hG : dictGet cx.images (normPath p) with
  | some r => exact hG
  | none =>
    show dictGet (dictPut cx.images (normPath p) cx.nextId) (normPath p) = some cx.nextId
    exact dictGet_dictPut_self _ _ _

theorem ctxImage_preserve (cx : ImageCtx) (p : List Char) (np : List Char) (v : ℕ)
    (h : dictGet cx.images np = some v) :
    dictGet ((ctxImage cx p).2).images np = some v := by
  unfold ctxImage
  cases hG : dictGet cx.images (normPath p) with
  | some r => exact h
  | none =>
    show dictGet (dictPut cx.images (normPath p) cx.nextId) np = some v
    by_cases hnp : np = normPath p
    · subst hnp
      rw [h] at hG
      exact absurd hG (by simp)
    · rw [dictGet_dictPut_ne _ _ _ _ hnp]
      exact h

theorem countOcc_append {α : Type} [DecidableEq α] :
    ∀ (l₁ l₂ : List α) (a : α),
      countOcc (l₁ ++ l₂) a = countOcc l₁ a + countOcc l₂ a := by
  intro l₁
  induction l₁ with
  | nil => intro l₂ a; simp [countOcc]
  | cons x rest ih =>
    intro l₂ a
    simp only [List.cons_append, countOcc, List.append_eq, ih]
    rw [Nat.add_assoc]

theorem ctxImage_count_inv (cx : ImageCtx) (p : List Char)
    (hInv : ∀ np, countOcc cx.loads np ≤ 1 ∧
      (dictGet cx.images np = none → countOcc cx.loads np = 0)) :
    ∀ np, countOcc ((ctxImage cx p).2).loads np ≤ 1 ∧
      (dictGet ((ctxImage cx p).2).images np = none →
        countOcc ((ctxImage cx p).2).loads np = 0) := by
  unfold ctxImage
  cases hG : dictGet cx.images (normPath p) with
  | some r => exact hInv
  | none =>
    intro np
    show countOcc (cx.loads ++ [normPath p]) np ≤ 1 ∧
      (dictGet (dictPut cx.images (normPath p) cx.nextId) np = none →
        countOcc (cx.loads ++ [normPath p]) np = 0)
    by_cases hnp : np = normPath p
    · have hz : countOcc cx.loads np = 0 := (hInv np).2 (by rw [hnp]; exact hG)
      constructor
      · rw [countOcc_append, hz]
        simp [countOcc, hnp.symm]
      · intro hcon
        rw [hnp, dictGet_dictPut_self] at hcon
        exact absurd hcon (by simp)
    · have hne : ¬ normPath p = np := fun hh => hnp hh.symm
      have hcnt : countOcc (cx.loads ++ [normPath p]) np = countOcc cx.loads np := by
        rw [countOcc_append]
        simp [countOcc, hne]
      constructor
      · rw [hcnt]
        exact (hInv np).1
      · intro hcon
        rw [dictGet_dictPut_ne _ _ _ _ hnp] at hcon
        rw [hcnt]
        exact (hInv np).2 hcon

theorem runImagesR_count_inv :
    ∀ (ps : List (List Char)) (cx : ImageCtx),
      (∀ np, countOcc cx.loads np ≤ 1 ∧
        (dictGet cx.images np = none → countOcc cx.loads np = 0)) →
      ∀ np, countOcc ((runImagesR cx ps).1).loads np ≤ 1 ∧
        (dictGet ((runImagesR cx ps).1).images np = none →
          countOcc ((runImagesR cx ps).1).loads np = 0) := by
  intro ps
  induction ps with
  | nil => intro cx h; exact h
  | cons p ps ih =>
    intro cx h
    exact ih (ctxImage cx p).2 (ctxImage_count_inv cx p h)

theorem runImagesR_spec :
    ∀ (ps : List (List Char)) (cx : ImageCtx),
      (∀ np v, dictGet cx.images np = some v →
        dictGet ((runImagesR cx ps).1).images np = some v) ∧
      List.Forall₂
        (fun p r => dictGet ((runImagesR cx ps).1).images (normPath p) = some r)
        ps (runImagesR cx ps).2 := by
  intro ps
  induction ps with
  | nil =>
    intro cx
    exact ⟨fun np v h => h, List.Forall₂.nil⟩
  | cons p ps ih =>
    intro cx
    obtain ⟨ihpres, ihall⟩ := ih (ctxImage cx p).2
    have heq : runImagesR cx (p :: ps) =
        ((runImagesR (ctxImage cx p).2 ps).1,
          (ctxImage cx p).1 :: (runImagesR (ctxImage cx p).2 ps).2) := rfl
    constructor
    · intro np v h
      rw [heq]
      exact ihpres np v (ctxImage_preserve cx p np v h)
    · rw [heq]
      exact List.Forall₂.cons (ihpres _ _ (ctxImage_post cx p)) ihall

/-- C10: the texture-image lookup is idempotent per import context: a
second call whose relative path normalises (lowercasing plus
backslash-to-separator) to the same key returns the same cached image and
leaves the context unchanged; over any call sequence on a fresh context
the underlying load runs at most once per normalised path; and any two
calls in the sequence with equal normalised paths return the same image
object.  The cache is a per-context field, so contexts are independent by
construction. -/
theorem C10_image_cache_idempotent :
    (∀ (cx : ImageCtx) (p1 p2 : List Char), normPath p1 = normPath p2 →
      ctxImage (ctxImage cx p1).2 p2 = ((ctxImage cx p1).1, (ctxImage cx p1).2)) ∧
    (∀ (ps : List (List Char)) (np : List Char),
      countOcc ((runImagesR ctxInit ps).1).loads np ≤ 1) ∧
    (∀ (ps : List (List Char)) (i j : ℕ)
        (hi : i < ps.length) (hj : j < ps.length),
      normPath (ps.get ⟨i, hi⟩) = normPath (ps.get ⟨j, hj⟩) →
      (runImagesR ctxInit ps).2.get? i = (runImagesR ctxInit ps).2.get? j) := by
  refine ⟨?_, ?_, ?_⟩
  · intro cx p1 p2 hnorm
    have hpost := ctxImage_post cx p1
    rw [hnorm] at hpost
    exact ctxImage_cached _ _ _ hpost
  · intro ps np
    have hInit : ∀ np, (countOcc ctxInit.loads np ≤ 1 ∧
        (dictGet ctxInit.images np = none → countOcc ctxInit.loads np = 0)) := by
      intro np
      exact ⟨by simp [ctxInit, countOcc], fun _ => by simp [ctxInit, countOcc]⟩
    exact (runImagesR_count_inv ps ctxInit hInit np).1
  · intro ps i j hi hj hnorm
    obtain ⟨_, hall⟩ := runImagesR_spec ps ctxInit
    have hlen := hall.length_eq
    have hget := (List.forall₂_iff_get.mp hall).2
    have hi' : i < (runImagesR ctxInit ps).2.length := hlen ▸ hi
    have hj' : j < (runImagesR ctxInit ps).2.length := hlen ▸ hj
    have gi := hget i hi hi'
    have gj := hget j hj hj'
    rw [hnorm] at gi
    rw [gj] at gi
    rw [List.get?_eq_get hi', List.get?_eq_get hj', Option.some_injective _ gi]

/-- Concrete check of C10: `A\b` and `a/B` normalise to the same path;
the second call is a cache hit returning the same image with the context
unchanged, and a fresh context running both calls performs exactly one
load. -/
theorem C10_image_cache_idempotent_witness :
    ctxImage (ctxImage ctxInit ['A', '\\', 'b']).2 ['a', '/', 'B'] =
      ((ctxImage ctxInit ['A', '\\', 'b']).1, (ctxImage ctxInit ['A', '\\', 'b']).2) ∧
    countOcc ((runImagesR ctxInit [['A', '\\', 'b'], ['a', '/', 'B']]).1).loads
        ['a', '/', 'b'] ≤ 1 ∧
    (runImagesR ctxInit [['A', '\\', 'b'], ['a', '/', 'B']]).2 = [0, 0] := by
  refine ⟨C10_image_cache_idempotent.1 ctxInit _ _ (by decide),
    C10_image_cache_idempotent.2.1 _ _, by decide⟩

/-! ### Motion index lemmas -/

theorem clipBytes_length (c : Clip) :
    (clipBytes c).length = c.name.length + 9 + c.body.length := by
  simp only [clipBytes, List.length_append, List.length_cons, putU32,
    List.length_nil]
  omega

theorem clipStartAt_zero (base : ℕ) (cs : List Clip) :
    clipStartAt base cs 0 = base := by
  simp [clipStartAt]

theorem clipStartAt_cons_succ (base : ℕ) (c : Clip) (rest : List Clip) (i : ℕ) :
    clipStartAt base (c :: rest) (i + 1) =
      clipStartAt (base + (clipBytes c).length) rest i := by
  unfold clipStartAt
  rw [List.take_succ_cons, List.map_cons, List.sum_cons]
  omega

theorem clipStartAt_ge (base : ℕ) (cs : List Clip) (i : ℕ) :
    base ≤ clipStartAt base cs i := by
  unfold clipStartAt
  omega

theorem skipTable_getD :
    ∀ (cs : List Clip) (base : ℕ) (i : ℕ) (h : i < cs.length),
      dictGet (skipTable cs base)
          (clipStartAt base cs i + ((cs.get ⟨i, h⟩).name.length + 1)) =
        some (8 + (cs.get ⟨i, h⟩).body.length) := by
  intro cs
  induction cs with
  | nil => intro base i h; simp at h
  | cons c rest ih =>
    intro base i h
    cases i with
    | zero =>
      have hg : (c :: rest).get ⟨0, h⟩ = c := rfl
      rw [hg]
      show (if base + (c.name.length + 1) =
          clipStartAt base (c :: rest) 0 + (c.name.length + 1)
        then some (8 + c.body.length)
        else dictGet (skipTable rest (base + (clipBytes c).length))
          (clipStartAt base (c :: rest) 0 + (c.name.length + 1))) = _
      rw [if_pos (by rw [clipStartAt_zero])]
    | succ i =>
      have hlt : i < rest.length := by
        simp only [List.length_cons] at h
        omega
      have hg : (c :: rest).get ⟨i + 1, h⟩ = rest.get ⟨i, hlt⟩ := rfl
      rw [hg, clipStartAt_cons_succ]
      show (if base + (c.name.length + 1) =
          clipStartAt (base + (clipBytes c).length) rest i +
            ((rest.get ⟨i, hlt⟩).name.length + 1)
        then some (8 + c.body.length)
        else dictGet (skipTable rest (base + (clipBytes c).length))
          (clipStartAt (base + (clipBytes c).length) rest i +
            ((rest.get ⟨i, hlt⟩).name.length + 1))) = _
      rw [if_neg ?_, ih (base + (clipBytes c).length) i hlt]
      have hge := clipStartAt_ge (base + (clipBytes c).length) rest i
      have hcl := clipBytes_length c
      omega

theorem indexAnims_run (sk : List ℕ → ℕ → ℕ) (data : List ℕ) :
    ∀ (cs : List Clip) (base : ℕ) (anims : List (List ℕ × (ℕ × ℤ)))
        (tail : List ℕ),
      (cs.map Clip.name).Nodup →
      (∀ c ∈ cs, (0 : ℕ) ∉ c.name ∧ c.startF < 4294967296 ∧
        c.endF < 4294967296) →
      data.drop base = (cs.map clipBytes).flatten ++ tail →
      (∀ i (h : i < cs.length),
        sk data (clipStartAt base cs i + ((cs.get ⟨i, h⟩).name.length + 1)) =
          8 + (cs.get ⟨i, h⟩).body.length) →
      ∃ animsF, indexAnims sk cs.length ⟨data, base⟩ anims = some animsF ∧
        (∀ nm v, dictGet anims nm = some v → nm ∉ cs.map Clip.name →
          dictGet animsF nm = some v) ∧
        (∀ i (h : i < cs.length),
          dictGet animsF (cs.get ⟨i, h⟩).name =
            some (clipStartAt base cs i,
              ((cs.get ⟨i, h⟩).endF : ℤ) - ((cs.get ⟨i, h⟩).startF : ℤ))) := by
  intro cs
  induction cs with
  | nil =>
    intro base anims tail _ _ _ _
    exact ⟨anims, rfl, fun nm v h _ => h, fun i h => absurd h (by simp)⟩
  | cons c rest ih =>
    intro base anims tail hnd hW hdrop hsk
    have hWc := hW c (List.mem_cons_self ..)
    have hdrop' : data.drop base = c.name ++ 0 ::
        (putU32 c.startF ++ (putU32 c.endF ++
          (c.body ++ ((rest.map clipBytes).flatten ++ tail)))) := by
      rw [hdrop]
      simp only [List.map_cons, List.flatten_cons, clipBytes, List.append_assoc,
        List.cons_append]
    obtain ⟨g1, d1⟩ := gets_eq data base c.name _ hWc.1 hdrop'
    obtain ⟨g2, d2⟩ := getU32_eq data (base + (c.name.length + 1)) c.startF _
      hWc.2.1 d1
    obtain ⟨g3, d3⟩ := getU32_eq data (base + (c.name.length + 1) + 4) c.endF _
      hWc.2.2 d2
    have hcs0 : clipStartAt base (c :: rest) 0 = base := clipStartAt_zero base _
    have hsk0 : sk data (base + (c.name.length + 1)) = 8 + c.body.length := by
      have := hsk 0 (by simp)
      rw [hcs0] at this
      exact this
    have hbody : data.drop (base + (c.name.length + 1) + 4 + 4 + c.body.length) =
        (rest.map clipBytes).flatten ++ tail := by
      have hdd : data.drop (base + (c.name.length + 1) + 4 + 4 + c.body.length) =
          (data.drop (base + (c.name.length + 1) + 4 + 4)).drop c.body.length := by
        rw [List.drop_drop]
      rw [hdd, d3, List.drop_left]
    have hbase' : base + (c.name.length + 1) + (8 + c.body.length) =
        base + (c.name.length + 1) + 4 + 4 + c.body.length := by omega
    have hskR : ∀ i (h : i < rest.length),
        sk data (clipStartAt (base + (c.name.length + 1) + 4 + 4 + c.body.length)
            rest i + ((rest.get ⟨i, h⟩).name.length + 1)) =
          8 + (rest.get ⟨i, h⟩).body.length := by
      intro i h
      have hh : i + 1 < (c :: rest).length := by
        simp only [List.length_cons]
        omega
      have := hsk (i + 1) hh
      have hg : (c :: rest).get ⟨i + 1, hh⟩ = rest.get ⟨i, h⟩ := rfl
      rw [hg, clipStartAt_cons_succ] at this
      have hsame : base + (clipBytes c).length =
          base + (c.name.length + 1) + 4 + 4 + c.body.length := by
        rw [clipBytes_length]
        omega
      rw [hsame] at this
      exact this
    obtain ⟨animsF, hrunF, hpresF, hcF⟩ :=
      ih (base + (c.name.length + 1) + 4 + 4 + c.body.length)
        (dictPut anims c.name (base, (c.endF : ℤ) - (c.startF : ℤ)))
        tail (List.nodup_cons.mp (by simpa using hnd)).2
        (fun x hx => hW x (List.mem_cons_of_mem _ hx)) hbody hskR
    have hrun : indexAnims sk (c :: rest).length ⟨data, base⟩ anims =
        some animsF := by
      simp only [List.length_cons]
      simp only [indexAnims, g1, g2, g3, option_bind_some]
      rw [hsk0]
      have heq : base + (c.name.length + 1) + (8 + c.body.length) =
          base + (c.name.length + 1) + 4 + 4 + c.body.length := by omega
      rw [heq]
      exact hrunF
    refine ⟨animsF, hrun, ?_, ?_⟩
    · intro nm v hv hnm
      have hnm1 : nm ≠ c.name := by
        intro hh
        exact hnm (by simp [hh])
      have hnm2 : nm ∉ rest.map Clip.name := by
        intro hh
        exact hnm (by simp [hh])
      refine hpresF nm v ?_ hnm2
      rw [dictGet_dictPut_ne _ _ _ _ hnm1]
      exact hv
    · intro i h
      cases i with
      | zero =>
        have hg : (c :: rest).get ⟨0, h⟩ = c := rfl
        rw [hg, hcs0]
        have hcn : c.name ∉ rest.map Clip.name :=
          (List.nodup_cons.mp (by simpa using hnd)).1
        refine hpresF c.name _ ?_ hcn
        exact dictGet_dictPut_self _ _ _
      | succ i =>
        have hlt : i < rest.length := by
          simp only [List.length_cons] at h
          omega
        have hg : (c :: rest).get ⟨i + 1, h⟩ = rest.get ⟨i, hlt⟩ := rfl
        rw [hg, clipStartAt_cons_succ]
        have hsame : base + (clipBytes c).length =
            base + (c.name.length + 1) + 4 + 4 + c.body.length := by
          rw [clipBytes_length]
          omega
        rw [hsame]
        exact hcF i hlt

/-- C5: indexing a well-formed motion container reads the clip count and,
for each clip, records the offset of the clip's name, reads the name and
the `(start_frame, end_frame)` pair, stores
`frame_count = end_frame - start_frame` under the name, and advances the
cursor past the clip body using the external skip-length calculator
without decoding the keyframe payload: the index entry for each clip
name holds the clip's name offset and exactly the `end_frame -
start_frame` recorded in that clip's header. -/
theorem C5_motion_index (cs : List Clip)
    (hnd : (cs.map Clip.name).Nodup)
    (hW : ∀ c ∈ cs, (0 : ℕ) ∉ c.name ∧ c.startF < 4294967296 ∧
      c.endF < 4294967296)
    (hcnt : cs.length < 4294967296) :
    ∃ animsF, indexAnimations (specSkip cs) (containerBytes cs) = some animsF ∧
      ∀ i (h : i < cs.length),
        dictGet animsF (cs.get ⟨i, h⟩).name =
          some (clipStart cs i,
            ((cs.get ⟨i, h⟩).endF : ℤ) - ((cs.get ⟨i, h⟩).startF : ℤ)) := by
  have hdrop0 : (containerBytes cs).drop 0 =
      putU32 cs.length ++ (cs.map clipBytes).flatten := by
    rw [List.drop_zero]
    rfl
  obtain ⟨gc, dc⟩ := getU32_eq (containerBytes cs) 0 cs.length
    ((cs.map clipBytes).flatten) hcnt hdrop0
  have hdrop4 : (containerBytes cs).drop 4 = (cs.map clipBytes).flatten ++ [] := by
    rw [List.append_nil]
    exact dc
  have hsk : ∀ i (h : i < cs.length),
      specSkip cs (containerBytes cs)
          (clipStartAt 4 cs i + ((cs.get ⟨i, h⟩).name.length + 1)) =
        8 + (cs.get ⟨i, h⟩).body.length := by
    intro i h
    unfold specSkip
    rw [skipTable_getD cs 4 i h]
    rfl
  obtain ⟨animsF, hrun, _, hc⟩ :=
    indexAnims_run (specSkip cs) (containerBytes cs) cs 4 [] [] hnd hW hdrop4 hsk
  refine ⟨animsF, ?_, ?_⟩
  · simp only [indexAnimations, gc, option_bind_some]
    exact hrun
  · intro i h
    exact hc i h

/-- Concrete check of C5: a container with clips `w` (frames 3..10, 3-byte
body) and `r` (frames 5..20, 1-byte body) indexes `w ↦ (offset 4,
frame_count 7)` and `r ↦ (offset 17, frame_count 15)`. -/
theorem C5_motion_index_witness :
    ∃ animsF,
      indexAnimations (specSkip [⟨[119], 3, 10, [1, 2, 3]⟩, ⟨[114], 5, 20, [9]⟩])
          (containerBytes [⟨[119], 3, 10, [1, 2, 3]⟩, ⟨[114], 5, 20, [9]⟩]) =
        some animsF ∧
      dictGet animsF [119] = some (4, 7) ∧
      dictGet animsF [114] = some (17, 15) := by
  obtain ⟨animsF, hrun, hc⟩ :=
    C5_motion_index [⟨[119], 3, 10, [1, 2, 3]⟩, ⟨[114], 5, 20, [9]⟩]
      (by decide) (by decide) (by decide)
  refine ⟨animsF, hrun, ?_, ?_⟩
  · have h0 := hc 0 (by decide)
    norm_num [clipStart, clipStartAt] at h0
    exact h0
  · have h1 := hc 1 (by decide)
    norm_num [clipStart, clipStartAt, clipBytes, putU32] at h1
    exact h1

end XRay
